import Mathlib

/-!
A verification development for the SyReC reversible-circuit synthesis and
simulation core.  The repository's Python layer only re-exports the native
core (`pysyrec`), so the data model and the operations are modelled here,
from the specification, as executable Lean definitions: gates with polarized
controls, circuits, the boolean simulator with its size check, the two cost
metrics, the bit-state container, and a synthesis engine over a program
model with the two allocation policies (line-aware and cost-aware).
-/

namespace Syrec

/-- Modelled from the spec: a control line of a generalized Toffoli gate,
"an ordered set of control lines each tagged positive/negative polarity".
The native gate type lives in the pysyrec core, which is not under `src/`. -/
structure Control where
  line : Nat
  pos : Bool
deriving DecidableEq, Repr

/-- Modelled from the spec: "a generalized Toffoli/NOT/CNOT gate: an ordered
set of control lines each tagged positive/negative polarity, and exactly one
target line XOR-updated". The native gate type is not under `src/`. -/
structure Gate where
  controls : List Control
  target : Nat
deriving DecidableEq, Repr

/-- Modelled from the spec: "an ordered sequence of Gates plus the total line
count"; `dataLines` records how many lines hold declared program variables
(the `num_data_qubits` of the binding surface).  The native circuit type is
not under `src/`. -/
structure Circuit where
  lines : Nat
  dataLines : Nat
  gates : List Gate
deriving DecidableEq, Repr

/-- Gate count accessor (`num_ops` on the binding surface). -/
def Circuit.numOps (c : Circuit) : Nat := c.gates.length

/-- Line count accessor (`num_qubits` / `num_lines()` on the binding surface). -/
def Circuit.numQubits (c : Circuit) : Nat := c.lines

/-- Modelled from the spec: a gate "toggles its target line if and only if
every control line currently matches its required polarity (all positive
controls =1 and all negative controls =0)".  States are total boolean
valuations of line indices.  The native simulator is not under `src/`. -/
def applyGate (g : Gate) (s : Nat → Bool) : Nat → Bool :=
  if g.controls.all (fun c => s c.line == c.pos) then
    fun i => if i = g.target then !(s g.target) else s i
  else s

/-- Apply a gate sequence in order (forward simulation of a gate list). -/
def applyGates (gs : List Gate) (s : Nat → Bool) : Nat → Bool :=
  gs.foldl (fun st g => applyGate g st) s

/-- View a finite bit-state (list) as a total valuation; absent lines read 0. -/
def listToFun (s : List Bool) : Nat → Bool := fun i => s.getD i false

/-- Read the first `n` lines of a valuation back into a finite bit-state. -/
def funToList (f : Nat → Bool) (n : Nat) : List Bool := (List.range n).map f

/-- Modelled from the spec: the simulation error taxonomy entry
"SimulationError (state-vector length mismatch with circuit line count)". -/
inductive SimError where
  | sizeMismatch (expected got : Nat)
deriving DecidableEq, Repr

/-- Modelled from the spec: `simulate(circuit, input_state, reverse=false)`.
"`input_state` length must equal `circuit.num_lines()`, else fails with a
size-mismatch error.  Forward mode applies gates in stored order ...
Reverse mode applies the same gates in reverse order."  The native
`simple_simulation` is not under `src/`. -/
def simulate (c : Circuit) (input : List Bool) (reverse : Bool) :
    Except SimError (List Bool) :=
  if input.length = c.lines then
    .ok (funToList
          (applyGates (if reverse then c.gates.reverse else c.gates) (listToFun input))
          c.lines)
  else .error (.sizeMismatch c.lines input.length)

/-- Number of negative-polarity controls of a gate. -/
def negControls (g : Gate) : Nat := g.controls.countP (fun c => !c.pos)

/-- Modelled from the spec: the fixed quantum-cost table, "a function only of
its control-line count and polarity mix (number of negative controls)"; the
concrete entries (1 for NOT/CNOT, 5 for the Toffoli, a closed form beyond)
follow the cited elementary-gate decompositions.  The native table is not
under `src/`. -/
def quantumCostTable (ctrls neg : Nat) : Nat :=
  if ctrls = 0 then 1
  else if ctrls = 1 then (if neg = 0 then 1 else 2)
  else 2 ^ (ctrls + 1) - 3 + neg

/-- Quantum-cost contribution of one gate. -/
def quantumCostOfGate (g : Gate) : Nat :=
  quantumCostTable g.controls.length (negControls g)

/-- Modelled from the spec: `quantum_cost(Circuit) -> int`, a pure sum of
per-gate contributions. -/
def quantumCost (c : Circuit) : Nat := (c.gates.map quantumCostOfGate).sum

/-- Modelled from the spec: the "separate, coarser per-control-count table"
for transistor cost (a fixed per-control constant). -/
def transistorCostOfGate (g : Gate) : Nat := 8 * g.controls.length

/-- Modelled from the spec: `transistor_cost(Circuit) -> int`, a pure sum of
per-gate contributions. -/
def transistorCost (c : Circuit) : Nat := (c.gates.map transistorCostOfGate).sum

/-- Relabel the lines a gate uses through `rho` (polarities untouched). -/
def relabelGate (rho : Nat → Nat) (g : Gate) : Gate :=
  ⟨g.controls.map (fun c => ⟨rho c.line, c.pos⟩), rho g.target⟩

/-- Relabel every gate of a circuit through `rho`. -/
def relabelCircuit (rho : Nat → Nat) (c : Circuit) : Circuit :=
  { c with gates := c.gates.map (relabelGate rho) }

/-- Modelled from the spec and the binding surface: `n_bit_values_container(n)`,
a fixed-length boolean vector created all-zero, with `size()`, `set(idx)` and
`[i]` readback.  The native container is not under `src/`. -/
structure NBitValuesContainer where
  bits : List Bool
deriving DecidableEq, Repr

/-- Construct an `n`-bit container with every bit 0. -/
def mkContainer (n : Nat) : NBitValuesContainer := ⟨List.replicate n false⟩

/-- `size()` accessor of the container. -/
def NBitValuesContainer.size (c : NBitValuesContainer) : Nat := c.bits.length

/-- `set(idx)`: set bit `idx` to 1 (out-of-range indices leave it unchanged). -/
def NBitValuesContainer.set (c : NBitValuesContainer) (idx : Nat) :
    NBitValuesContainer := ⟨c.bits.set idx true⟩

/-- `[i]` readback of bit `i` (out-of-range reads 0). -/
def NBitValuesContainer.get (c : NBitValuesContainer) (i : Nat) : Bool :=
  c.bits.getD i false

/-- Modelled from the test helper `init_n_bit_values_container_with_expected_state`:
walk a stringified state and `set` each position holding a 1, starting at
index `idx`. -/
def initAux (c : NBitValuesContainer) : Nat → List Bool → NBitValuesContainer
  | _, [] => c
  | idx, bv :: rest => initAux (if bv then c.set idx else c) (idx + 1) rest

/-- Initialize a container from a bit string by setting its 1-positions. -/
def initWithState (c : NBitValuesContainer) (s : List Bool) : NBitValuesContainer :=
  initAux c 0 s

/-- Modelled from the spec: the variable kinds
"{input, output, inout, local/wire, state}" (the claims exercise the first
three). -/
inductive VarKind where
  | input
  | output
  | inout
deriving DecidableEq, Repr

/-- Modelled from the spec: a declared variable with "name, declared
bit-width, kind". -/
structure VarDecl where
  name : String
  width : Nat
  kind : VarKind
deriving DecidableEq, Repr

/-- Modelled from the spec: the statement forms the claims exercise — the
swap `a <=> b` and the additive assignment `c := a + b` (an instance of
"Assignment `a := expr`" with an `add` expression over two variables). -/
inductive Stmt where
  | swapStmt (a b : String)
  | assignAdd (target lhs rhs : String)
deriving DecidableEq, Repr

/-- Modelled from the spec: the program model produced by the parser —
module-scope declarations followed by the statement list. -/
structure Program where
  decls : List VarDecl
  stmts : List Stmt
deriving DecidableEq, Repr

/-- Line layout: declared variables occupy contiguous line blocks in
declaration order; `offsetOfAux acc decls n` returns the `(offset, width)` of
the first declaration named `n`, `acc` being the lines consumed so far. -/
def offsetOfAux : Nat → List VarDecl → String → Option (Nat × Nat)
  | _, [], _ => none
  | acc, d :: ds, n =>
    if d.name = n then some (acc, d.width) else offsetOfAux (acc + d.width) ds n

/-- The `(offset, width)` line binding of variable `n`. -/
def offsetOf (decls : List VarDecl) (n : String) : Option (Nat × Nat) :=
  offsetOfAux 0 decls n

/-- Total number of lines holding declared variables (`num_data_qubits`). -/
def dataLinesOf (decls : List VarDecl) : Nat := (decls.map VarDecl.width).sum

/-- The variable names a statement references. -/
def referencedVars : Stmt → List String
  | .swapStmt a b => [a, b]
  | .assignAdd c a b => [c, a, b]

/-- Modelled from the spec: "Diagnostics carry source position and message";
the position is the index of the offending statement. -/
structure Diagnostic where
  pos : Nat
  msg : String
deriving DecidableEq, Repr

/-- Collect undeclared-variable diagnostics for the statements, numbering
them from `i`. -/
def diagsFrom (names : List String) : Nat → List Stmt → List Diagnostic
  | _, [] => []
  | i, s :: rest =>
    ((referencedVars s).filter (fun n => decide (n ∉ names))).map
        (fun n => ⟨i, "undeclared variable " ++ n⟩)
      ++ diagsFrom names (i + 1) rest

/-- Modelled from the spec: the parser's semantic check for
"undefined-variable use", reported "as a value, never thrown". -/
def semanticDiagnostics (p : Program) : List Diagnostic :=
  diagsFrom (p.decls.map VarDecl.name) 0 p.stmts

/-- A CNOT gate: one positive control `c`, target `t`. -/
def cnot (c t : Nat) : Gate := ⟨[⟨c, true⟩], t⟩

/-- A Toffoli gate: positive controls `c1, c2`, target `t`. -/
def toffoli (c1 c2 t : Nat) : Gate := ⟨[⟨c1, true⟩, ⟨c2, true⟩], t⟩

/-- Line of bit `k` (LSB = bit 0) of a variable at `offset` with `width`
lines: the layout is most-significant-bit first, matching the stringified
states of the binding surface. -/
def lineForBit (offset width k : Nat) : Nat := offset + (width - 1 - k)

/-- Modelled from the spec: "**Swap** `a <=> b`: emitted as a sequence of
three CNOT gates per corresponding bit pair (XOR-swap)". -/
def swapGates (oa ob w : Nat) : List Gate :=
  (List.range w).flatMap
    (fun k => [cnot (oa + k) (ob + k), cnot (ob + k) (oa + k), cnot (oa + k) (ob + k)])

/-- Ripple-carry stage: with the temporaries `ts` holding the running
carries, XOR the majority of `(lhs bit k, rhs bit k, carry k)` into carry
`k+1`, for every non-final bit. -/
def carryGates (la lb : Nat → Nat) (ts : List Nat) (w : Nat) : List Gate :=
  (List.range (w - 1)).flatMap (fun k =>
    [toffoli (la k) (lb k) (ts.getD (k + 1) 0),
     toffoli (la k) (ts.getD k 0) (ts.getD (k + 1) 0),
     toffoli (lb k) (ts.getD k 0) (ts.getD (k + 1) 0)])

/-- Ripple-carry stage: XOR `lhs bit k` and `rhs bit k` into temporary `k`,
turning each carry into the sum bit. -/
def sumGates (la lb : Nat → Nat) (ts : List Nat) (w : Nat) : List Gate :=
  (List.range w).flatMap
    (fun k => [cnot (la k) (ts.getD k 0), cnot (lb k) (ts.getD k 0)])

/-- Modelled from the spec: "ripple-style adders built from chained
Toffoli/CNOT gates" — compute `lhs + rhs` into the zero-initialized
temporaries `ts`. -/
def addIntoTemps (la lb : Nat → Nat) (ts : List Nat) (w : Nat) : List Gate :=
  carryGates la lb ts w ++ sumGates la lb ts w

/-- Modelled from the spec: "XOR the temporary's bits into `a`'s lines
bit-by-bit via CNOT" — copy the computed sum onto the target variable. -/
def xorFromTemps (ts : List Nat) (lc : Nat → Nat) (w : Nat) : List Gate :=
  (List.range w).map (fun k => cnot (ts.getD k 0) (lc k))

/-- Modelled from the spec: the two synthesis policies, "line-aware" and
"cost-aware". -/
inductive Mode where
  | lineAware
  | costAware
deriving DecidableEq, Repr

/-- Modelled from the spec: the resource-allocator state interleaved with
synthesis — the monotone total line count, the free list of
garbage-and-zeroed temporary lines (line-aware reuse), and the gates emitted
so far. -/
structure SynthState where
  lines : Nat
  freeTemps : List Nat
  gates : List Gate
deriving DecidableEq, Repr

/-- Modelled from the spec: "acquiring a temporary first attempts to reuse a
line marked garbage-and-zeroed; only if none exists does the total line count
grow" (line-aware); "acquiring a temporary always allocates a fresh ancilla
line" (cost-aware). -/
def acquireTemp (m : Mode) (st : SynthState) : Nat × SynthState :=
  match m, st.freeTemps with
  | .lineAware, t :: rest => (t, { st with freeTemps := rest })
  | _, _ => (st.lines, { st with lines := st.lines + 1 })

/-- Acquire `n` temporary lines in sequence. -/
def acquireTemps (m : Mode) (st : SynthState) : Nat → List Nat × SynthState
  | 0 => ([], st)
  | n + 1 =>
    let p := acquireTemp m st
    let q := acquireTemps m p.2 n
    (p.1 :: q.1, q.2)

/-- Modelled from the spec: line-aware release returns uncomputed
(zeroed) temporaries to the free list; cost-aware leaves them as garbage. -/
def releaseTemps (m : Mode) (ts : List Nat) (st : SynthState) : SynthState :=
  match m with
  | .lineAware => { st with freeTemps := ts ++ st.freeTemps }
  | .costAware => st

/-- Modelled from the spec, §4.3: synthesize one statement.  Swap emits the
three-CNOT blocks; additive assignment computes the sum into acquired
temporaries, XORs it into the target, then uncomputes and releases the
temporaries (line-aware) or leaves them garbage (cost-aware).  Width
mismatches, width-zero variables and aliased operands are constructs the
engine refuses to lower (`success=false`). -/
def synthStmt (m : Mode) (decls : List VarDecl) (st : SynthState) :
    Stmt → Option SynthState
  | .swapStmt a b =>
    match offsetOf decls a, offsetOf decls b with
    | some (oa, wa), some (ob, wb) =>
      if wa = wb ∧ 0 < wa ∧ a ≠ b then
        some { st with gates := st.gates ++ swapGates oa ob wa }
      else none
    | _, _ => none
  | .assignAdd c a b =>
    match offsetOf decls c, offsetOf decls a, offsetOf decls b with
    | some (oc, wc), some (oa, wa), some (ob, wb) =>
      if wa = wc ∧ wb = wc ∧ 0 < wc ∧ c ≠ a ∧ c ≠ b then
        let acq := acquireTemps m st wc
        let compute := addIntoTemps (lineForBit oa wa) (lineForBit ob wb) acq.1 wc
        let copy := xorFromTemps acq.1 (lineForBit oc wc) wc
        let uncompute := if m = .lineAware then compute.reverse else []
        some (releaseTemps m acq.1
          { acq.2 with gates := acq.2.gates ++ compute ++ copy ++ uncompute })
      else none
    | _, _, _ => none

/-- Fold statement synthesis over the statement list, failing fast. -/
def synthFold (m : Mode) (decls : List VarDecl) :
    SynthState → List Stmt → Option SynthState
  | st, [] => some st
  | st, s :: rest =>
    match synthStmt m decls st s with
    | some st1 => synthFold m decls st1 rest
    | none => none

/-- Modelled from the spec: `synthesize(mode, Program) -> (Circuit, success)`
as an `Option`; "synthesis must refuse to run when diagnostics are
non-empty".  Lines for declared variables are allocated up front, then the
statements are synthesized in order. -/
def synthesize (m : Mode) (p : Program) : Option Circuit :=
  if semanticDiagnostics p = [] then
    match synthFold m p.decls ⟨dataLinesOf p.decls, [], []⟩ p.stmts with
    | some st => some ⟨st.lines, dataLinesOf p.decls, st.gates⟩
    | none => none
  else none

/-- The spec's concrete scenario: `in a(2), in b(2), out c(2)` with body
`c := a + b`. -/
def addProg : Program :=
  ⟨[⟨"a", 2, .input⟩, ⟨"b", 2, .input⟩, ⟨"c", 2, .output⟩],
   [.assignAdd "c" "a" "b"]⟩

/-- A swap program: `a(w) <=> b(w)`. -/
def swapProg (w : Nat) : Program :=
  ⟨[⟨"a", w, .input⟩, ⟨"b", w, .input⟩], [.swapStmt "a" "b"]⟩

/-- The addition statement executed twice: line-aware synthesis reuses the
released temporaries, cost-aware synthesis allocates fresh ones. -/
def twoAddsProg : Program :=
  ⟨[⟨"a", 2, .input⟩, ⟨"b", 2, .input⟩, ⟨"c", 2, .output⟩],
   [.assignAdd "c" "a" "b", .assignAdd "c" "a" "b"]⟩

/-- The line-aware circuit for the concrete scenario program. -/
def addCircuitLA : Circuit := (synthesize .lineAware addProg).getD ⟨0, 0, []⟩

/-- The cost-aware circuit for the concrete scenario program. -/
def addCircuitCA : Circuit := (synthesize .costAware addProg).getD ⟨0, 0, []⟩

/-- The line-aware circuit for the two-additions program. -/
def twoAddsCircuitLA : Circuit := (synthesize .lineAware twoAddsProg).getD ⟨0, 0, []⟩

/-- The cost-aware circuit for the two-additions program. -/
def twoAddsCircuitCA : Circuit := (synthesize .costAware twoAddsProg).getD ⟨0, 0, []⟩

/-- The width-2 swap circuit (both policies emit the same gates). -/
def swapCircuit2 : Circuit := (synthesize .lineAware (swapProg 2)).getD ⟨0, 0, []⟩

/-- The scenario input state `a=01, b=01, c=00` padded with zero ancillae:
lines are most-significant-bit first per variable. -/
def scenarioInput : List Bool :=
  [false, true, false, true, false, false] ++ List.replicate 2 false

/-- The valuation with positions `i` and `j` exchanged. -/
def swapAt (i j : Nat) (s : Nat → Bool) : Nat → Bool :=
  fun x => if x = i then s j else if x = j then s i else s x

/-- The simulation relation between a line-aware run and a cost-aware run:
the `d` data lines agree, every non-data line of the line-aware state is
(restored to) zero, and every not-yet-allocated cost-aware line is zero. -/
def SimRel (d nC : Nat) (sL sC : Nat → Bool) : Prop :=
  (∀ j, j < d → sL j = sC j) ∧ (∀ j, d ≤ j → sL j = false) ∧
    (∀ j, nC ≤ j → sC j = false)

/-- The renaming that matches the line-aware temporaries `tsL` with the
cost-aware temporaries `tsC` position by position and fixes every other
line. -/
def tempRelabel (tsL tsC : List Nat) : Nat → Nat :=
  fun j => if j ∈ tsL then tsC.getD (tsL.indexOf j) 0 else j

/-! ### Basic facts about gate application -/

/-- The lines a gate involves: its target and its control lines. -/
def gateLines (g : Gate) : List Nat := g.target :: g.controls.map Control.line

/-- Well-formedness of a gate on an `n`-line circuit: target and controls in
range, and the target not among the controls. -/
def GateValid (g : Gate) (n : Nat) : Prop :=
  g.target < n ∧ (∀ c ∈ g.controls, c.line < n) ∧
    g.target ∉ g.controls.map Control.line

instance (g : Gate) (n : Nat) : Decidable (GateValid g n) :=
  inferInstanceAs (Decidable (_ ∧ _ ∧ _))

/-- Two valuations agreeing on every line satisfying `L`. -/
def agreeOn (L : Nat → Prop) (s t : Nat → Bool) : Prop :=
  ∀ i, L i → s i = t i

/-- Allocator bookkeeping invariant: data lines fit below the line count, and
the free list holds in-range, pairwise-distinct non-data lines. -/
def StInvBase (d : Nat) (st : SynthState) : Prop :=
  d ≤ st.lines ∧ (∀ t ∈ st.freeTemps, d ≤ t ∧ t < st.lines) ∧ st.freeTemps.Nodup

/-- Full engine invariant: allocator bookkeeping plus validity of every gate
emitted so far. -/
def StInv (d : Nat) (st : SynthState) : Prop :=
  StInvBase d st ∧ ∀ g ∈ st.gates, GateValid g st.lines

/-- What temporary acquisition guarantees: `n` fresh-or-reused lines that are
pairwise distinct, in range, above the data lines and off the free list,
with lines growing by at most `n` (exactly `n` for cost-aware). -/
structure AcqSpec (d n : Nat) (st : SynthState) (ts : List Nat)
    (st' : SynthState) : Prop where
  len : ts.length = n
  linesLe : st.lines ≤ st'.lines
  linesGrow : st'.lines ≤ st.lines + n
  nodup : ts.Nodup
  range : ∀ t ∈ ts, d ≤ t ∧ t < st'.lines
  notFree : ∀ t ∈ ts, t ∉ st'.freeTemps
  src : ∀ t ∈ ts, t ∈ st.freeTemps ∨ st.lines ≤ t
  freeSub : ∀ t ∈ st'.freeTemps, t ∈ st.freeTemps
  gatesEq : st'.gates = st.gates
  inv : StInvBase d st' 

theorem applyGate_ne_target (g : Gate) (s : Nat → Bool) {i : Nat}
    (h : i ≠ g.target) : applyGate g s i = s i := by
  unfold applyGate
  split
  · simp [h]
  · rfl

theorem all_congr_aux {α : Type} (l : List α) (f g : α → Bool)
    (h : ∀ a ∈ l, f a = g a) : l.all f = l.all g := by
  induction l with
  | nil => rfl
  | cons a l ih =>
    simp only [List.all_cons, h a (by simp), ih (fun x hx => h x (by simp [hx]))]

theorem applyGate_cond_congr (g : Gate) (s t : Nat → Bool)
    (h : ∀ c ∈ g.controls, s c.line = t c.line) :
    g.controls.all (fun c => s c.line == c.pos) =
      g.controls.all (fun c => t c.line == c.pos) :=
  all_congr_aux _ _ _ (fun c hc => by rw [h c hc])

theorem applyGate_congr {L : Nat → Prop} (g : Gate) (s t : Nat → Bool)
    (hsub : ∀ j ∈ gateLines g, L j) (hag : agreeOn L s t) :
    agreeOn L (applyGate g s) (applyGate g t) := by
  intro i hi
  have hctl : ∀ c ∈ g.controls, s c.line = t c.line := fun c hc =>
    hag c.line (hsub c.line (by simp [gateLines]; right; exact ⟨c, hc, rfl⟩))
  have hcond := applyGate_cond_congr g s t hctl
  unfold applyGate
  rw [hcond]
  split
  · by_cases hit : i = g.target
    · simp [hit, hag g.target (hsub g.target (by simp [gateLines]))]
    · simp [hit, hag i hi]
  · exact hag i hi

theorem applyGate_self_inverse (g : Gate) (s : Nat → Bool)
    (h : g.target ∉ g.controls.map Control.line) :
    applyGate g (applyGate g s) = s := by
  by_cases hc : g.controls.all (fun c => s c.line == c.pos)
  · have hs' : applyGate g s = fun i => if i = g.target then !(s g.target) else s i := by
      unfold applyGate; rw [if_pos hc]
    have hctl : ∀ c ∈ g.controls, (applyGate g s) c.line = s c.line := by
      intro c hcmem
      have : c.line ≠ g.target := by
        intro he
        exact h (by rw [← he]; exact List.mem_map_of_mem Control.line hcmem)
      rw [hs']
      simp [this]
    have hcond := applyGate_cond_congr g (applyGate g s) s hctl
    funext i
    conv_lhs => rw [applyGate]
    rw [hcond, if_pos hc, hs']
    by_cases hit : i = g.target <;> simp [hit]
  · have hs' : applyGate g s = s := by
      unfold applyGate; rw [if_neg hc]
    rw [hs', hs']

theorem applyGates_nil (s : Nat → Bool) : applyGates [] s = s := rfl

theorem applyGates_cons (g : Gate) (gs : List Gate) (s : Nat → Bool) :
    applyGates (g :: gs) s = applyGates gs (applyGate g s) := rfl

theorem applyGates_append (gs hs : List Gate) (s : Nat → Bool) :
    applyGates (gs ++ hs) s = applyGates hs (applyGates gs s) := by
  unfold applyGates
  rw [List.foldl_append]

theorem applyGates_congr {L : Nat → Prop} (gs : List Gate) (s t : Nat → Bool)
    (hsub : ∀ g ∈ gs, ∀ j ∈ gateLines g, L j) (hag : agreeOn L s t) :
    agreeOn L (applyGates gs s) (applyGates gs t) := by
  induction gs generalizing s t with
  | nil => exact hag
  | cons g gs ih =>
    rw [applyGates_cons, applyGates_cons]
    exact ih _ _ (fun g hg => hsub g (by simp [hg]))
      (applyGate_congr g s t (hsub g (by simp)) hag)

theorem applyGates_frame {L : Nat → Prop} (gs : List Gate) (s : Nat → Bool)
    (h : ∀ g ∈ gs, ¬ L g.target) :
    agreeOn L (applyGates gs s) s := by
  induction gs generalizing s with
  | nil => intro i _; rfl
  | cons g gs ih =>
    intro i hi
    rw [applyGates_cons]
    rw [ih (applyGate g s) (fun g hg => h g (by simp [hg])) i hi]
    exact applyGate_ne_target g s (by intro he; exact h g (by simp) (he ▸ hi))

theorem applyGates_reverse_inverse (gs : List Gate) (s : Nat → Bool)
    (h : ∀ g ∈ gs, g.target ∉ g.controls.map Control.line) :
    applyGates gs.reverse (applyGates gs s) = s := by
  induction gs generalizing s with
  | nil => rfl
  | cons g gs ih =>
    rw [applyGates_cons, List.reverse_cons, applyGates_append,
      ih (applyGate g s) (fun g hg => h g (by simp [hg]))]
    rw [show applyGates [g] (applyGate g s) = applyGate g (applyGate g s) from rfl]
    exact applyGate_self_inverse g s (h g (by simp))

theorem applyGates_relabel {L : Nat → Prop} (rho : Nat → Nat)
    (gs : List Gate) (s t : Nat → Bool)
    (hinj : ∀ i j, L i → L j → rho i = rho j → i = j)
    (hsub : ∀ g ∈ gs, ∀ j ∈ gateLines g, L j)
    (hag : ∀ i, L i → s i = t (rho i)) :
    ∀ i, L i → applyGates gs s i = applyGates (gs.map (relabelGate rho)) t (rho i) := by
  induction gs generalizing s t with
  | nil => exact hag
  | cons g gs ih =>
    rw [List.map_cons]
    intro i hi
    rw [applyGates_cons, applyGates_cons]
    refine ih (applyGate g s) (applyGate (relabelGate rho g) t)
      (fun g hg => hsub g (by simp [hg])) ?_ i hi
    intro j hj
    have hsubg := hsub g (by simp)
    have htgt : L g.target := hsubg g.target (by simp [gateLines])
    have hctlL : ∀ c ∈ g.controls, L c.line := fun c hc =>
      hsubg c.line (by simp [gateLines]; right; exact ⟨c, hc, rfl⟩)
    have hcond : g.controls.all (fun c => s c.line == c.pos) =
        (relabelGate rho g).controls.all (fun c => t c.line == c.pos) := by
      unfold relabelGate
      rw [List.all_map]
      exact all_congr_aux _ _ _ (fun c hc => by
        simp only [Function.comp]
        rw [hag c.line (hctlL c hc)])
    unfold applyGate
    rw [← hcond]
    split
    · by_cases hjt : j = g.target
      · have : rho j = rho g.target := by rw [hjt]
        simp only [relabelGate, hjt, this, if_pos rfl]
        rw [hag g.target htgt]
      · have : rho j ≠ rho g.target := fun he => hjt (hinj j g.target hj htgt he)
        simp only [relabelGate, if_neg hjt, if_neg this]
        exact hag j hj
    · exact hag j hj

/-! ### Conversion between finite bit-states and valuations -/

theorem length_funToList (f : Nat → Bool) (n : Nat) : (funToList f n).length = n := by
  simp [funToList]

theorem getD_funToList (f : Nat → Bool) (n j : Nat) :
    (funToList f n).getD j false = if j < n then f j else false := by
  unfold funToList
  by_cases h : j < n
  · simp [List.getD, List.getElem?_map, List.getElem?_range h, h]
  · have hlen : ((List.range n).map f).length ≤ j := by simp; omega
    simp [List.getD, List.getElem?_eq_none hlen, h]

theorem listToFun_funToList (f : Nat → Bool) (n : Nat) :
    listToFun (funToList f n) = fun j => if j < n then f j else false := by
  funext j
  unfold listToFun
  rw [getD_funToList]

theorem listToFun_append_zeros (ds : List Bool) (k : Nat) :
    listToFun (ds ++ List.replicate k false) = listToFun ds := by
  funext j
  unfold listToFun
  by_cases h : j < ds.length
  · simp [List.getD, List.getElem?_append, h]
  · have h2 : ds.length ≤ j := by omega
    simp [List.getD, List.getElem?_append, h, List.getElem?_replicate]
    split <;> simp [List.getElem?_eq_none h2]

theorem getD_eq_false_of_le (l : List Bool) (j : Nat) (h : l.length ≤ j) :
    l.getD j false = false := by
  simp [List.getD, List.getElem?_eq_none h]

/-! ### The simulation size check (claim C4) -/

/-- C4: simulation succeeds exactly when the input state's length equals the
circuit's line count; on a mismatch it fails with the size-mismatch error and
yields no output state. -/
theorem simulate_size_check :
    ∀ (c : Circuit) (s : List Bool) (rev : Bool),
      ((simulate c s rev).isOk = true ↔ s.length = c.lines) ∧
      (s.length ≠ c.lines →
        simulate c s rev = .error (.sizeMismatch c.lines s.length)) := by
  intro c s rev
  unfold simulate
  by_cases h : s.length = c.lines
  · simp [h, Except.isOk, Except.toBool]
  · simp [h, Except.isOk, Except.toBool]

/-- Witness for C4 at a concrete circuit: a one-line circuit accepts a
one-bit state and rejects a two-bit state with the size-mismatch error. -/
theorem simulate_size_check_witness :
    (simulate ⟨1, 1, []⟩ [true, false] false =
        .error (.sizeMismatch 1 2)) ∧
      (simulate ⟨1, 1, []⟩ [true] false).isOk = true :=
  ⟨(simulate_size_check ⟨1, 1, []⟩ [true, false] false).2 (by decide),
   (simulate_size_check ⟨1, 1, []⟩ [true] false).1.mpr (by decide)⟩

/-! ### Cost-model invariances (claim C9) -/

theorem quantumCostOfGate_relabel (rho : Nat → Nat) (g : Gate) :
    quantumCostOfGate (relabelGate rho g) = quantumCostOfGate g := by
  unfold quantumCostOfGate relabelGate negControls
  simp only [List.length_map, List.countP_map]
  congr 1

theorem transistorCostOfGate_relabel (rho : Nat → Nat) (g : Gate) :
    transistorCostOfGate (relabelGate rho g) = transistorCostOfGate g := by
  unfold transistorCostOfGate relabelGate
  simp

/-- C9: both cost metrics are order- and line-identity-independent: a
permutation of the gate list and a relabeling of the lines leave
`quantumCost` and `transistorCost` unchanged (each gate's contribution
depends only on its control count and polarity mix). -/
theorem cost_invariance :
    ∀ (A B : Circuit) (rho : Nat → Nat),
      (A.gates.Perm B.gates →
        quantumCost A = quantumCost B ∧ transistorCost A = transistorCost B) ∧
      quantumCost (relabelCircuit rho A) = quantumCost A ∧
      transistorCost (relabelCircuit rho A) = transistorCost A := by
  intro A B rho
  refine ⟨fun h => ⟨(h.map quantumCostOfGate).sum_eq,
    (h.map transistorCostOfGate).sum_eq⟩, ?_, ?_⟩
  · unfold quantumCost relabelCircuit
    simp only [List.map_map]
    congr 1
    exact List.map_congr_left (fun g _ => quantumCostOfGate_relabel rho g)
  · unfold transistorCost relabelCircuit
    simp only [List.map_map]
    congr 1
    exact List.map_congr_left (fun g _ => transistorCostOfGate_relabel rho g)

/-- Witness for C9: a two-gate circuit, its reversal, and a line shift have
equal costs. -/
theorem cost_invariance_witness :
    quantumCost ⟨3, 3, [toffoli 0 1 2, cnot 0 1]⟩ =
        quantumCost ⟨3, 3, [cnot 0 1, toffoli 0 1 2]⟩ ∧
      transistorCost ⟨3, 3, [toffoli 0 1 2, cnot 0 1]⟩ =
        transistorCost ⟨3, 3, [cnot 0 1, toffoli 0 1 2]⟩ ∧
      quantumCost (relabelCircuit (fun i => i + 5) ⟨3, 3, [toffoli 0 1 2, cnot 0 1]⟩) =
        quantumCost ⟨3, 3, [toffoli 0 1 2, cnot 0 1]⟩ := by
  have h := cost_invariance ⟨3, 3, [toffoli 0 1 2, cnot 0 1]⟩
    ⟨3, 3, [cnot 0 1, toffoli 0 1 2]⟩ (fun i => i + 5)
  have hperm : ([toffoli 0 1 2, cnot 0 1] : List Gate).Perm [cnot 0 1, toffoli 0 1 2] := by
    decide
  exact ⟨(h.1 hperm).1, (h.1 hperm).2, h.2.1⟩

/-! ### The n-bit values container (claim C10) -/

theorem size_set (c : NBitValuesContainer) (idx : Nat) :
    (c.set idx).size = c.size := by
  simp [NBitValuesContainer.set, NBitValuesContainer.size]

theorem get_set (c : NBitValuesContainer) (idx j : Nat) :
    (c.set idx).get j = if idx = j ∧ idx < c.size then true else c.get j := by
  unfold NBitValuesContainer.get NBitValuesContainer.set NBitValuesContainer.size
  simp only [List.getD, List.getElem?_set]
  by_cases h1 : idx = j
  · subst h1
    by_cases h2 : idx < c.bits.length
    · simp [h2]
    · simp only [h2, and_false, if_false]
      rw [List.set_eq_of_length_le (by omega)]
  · simp [h1]

theorem size_initAux (s : List Bool) : ∀ (idx : Nat) (c : NBitValuesContainer),
    (initAux c idx s).size = c.size := by
  induction s with
  | nil => intro idx c; rfl
  | cons bv rest ih =>
    intro idx c
    unfold initAux
    rw [ih]
    by_cases hbv : bv <;> simp [hbv, size_set]

theorem get_initAux_lt (s : List Bool) : ∀ (idx : Nat) (c : NBitValuesContainer)
    (j : Nat), j < idx → (initAux c idx s).get j = c.get j := by
  induction s with
  | nil => intro idx c j _; rfl
  | cons bv rest ih =>
    intro idx c j h
    unfold initAux
    rw [ih (idx + 1) _ j (by omega)]
    by_cases hbv : bv
    · simp only [hbv, if_true]
      rw [get_set, if_neg]
      rintro ⟨he, _⟩
      omega
    · simp [hbv]

theorem get_initAux_in (s : List Bool) : ∀ (idx : Nat) (c : NBitValuesContainer)
    (j : Nat), idx ≤ j → j - idx < s.length → j < c.size →
    (initAux c idx s).get j = (c.get j || s.getD (j - idx) false) := by
  induction s with
  | nil => intro idx c j _ h2 _; simp at h2
  | cons bv rest ih =>
    intro idx c j h1 h2 h3
    unfold initAux
    by_cases hj : j = idx
    · subst hj
      rw [get_initAux_lt rest (j + 1) _ j (by omega)]
      by_cases hbv : bv
      · simp only [hbv, if_true]
        rw [get_set, if_pos ⟨rfl, h3⟩]
        simp
      · simp [hbv]
    · have hja : idx + 1 ≤ j := by omega
      rw [ih (idx + 1) _ j hja (by simp at h2 ⊢; omega)
        (by by_cases hbv : bv <;> simp [hbv, size_set, h3])]
      have hg : (if bv then c.set idx else c).get j = c.get j := by
        by_cases hbv : bv
        · simp only [hbv, if_true]
          rw [get_set, if_neg]
          rintro ⟨he, _⟩
          omega
        · simp [hbv]
      rw [hg]
      have hidx : j - idx = (j - (idx + 1)) + 1 := by omega
      rw [hidx, List.getD_cons_succ]

/-- C10: a freshly constructed container has `size() = n` and all bits 0;
`set(idx)` for an in-range index sets exactly bit `idx` to 1; and a
container initialized from the 1-positions of a bit string reads that string
back. -/
theorem container_semantics :
    ∀ (n : Nat) (c : NBitValuesContainer) (idx : Nat) (s : List Bool),
      (mkContainer n).size = n ∧
      (∀ i, (mkContainer n).get i = false) ∧
      (idx < c.size →
        ((c.set idx).get idx = true ∧ (c.set idx).size = c.size ∧
          ∀ j, j ≠ idx → (c.set idx).get j = c.get j)) ∧
      (s.length ≤ n → ∀ i, i < s.length →
        (initWithState (mkContainer n) s).get i = s.getD i false) := by
  intro n c idx s
  have hmkget : ∀ i, (mkContainer n).get i = false := by
    intro i
    unfold mkContainer NBitValuesContainer.get
    simp [List.getD, List.getElem?_replicate]
    split <;> simp
  refine ⟨by simp [mkContainer, NBitValuesContainer.size], hmkget, fun h => ?_, fun hlen i hi => ?_⟩
  · refine ⟨by rw [get_set, if_pos ⟨rfl, h⟩], size_set c idx, fun j hj => ?_⟩
    rw [get_set, if_neg]
    rintro ⟨he, _⟩
    exact hj he.symm
  · unfold initWithState
    rw [get_initAux_in s 0 (mkContainer n) i (by omega)
      (by omega) (by simp [mkContainer, NBitValuesContainer.size]; omega)]
    rw [hmkget i]
    simp

/-- Witness for C10 at `n = 4`, `idx = 2`, string `101`. -/
theorem container_semantics_witness :
    ((mkContainer 4).set 2).get 2 = true ∧
      (initWithState (mkContainer 4) [true, false, true]).get 2 = true := by
  have h := container_semantics 4 (mkContainer 4) 2 [true, false, true]
  refine ⟨(h.2.2.1 (by decide)).1, ?_⟩
  have h2 := h.2.2.2 (by decide) 2 (by decide)
  rw [h2]
  decide

/-! ### Determinism of synthesis (claim C3) -/

/-- C3: synthesis is a pure function of the program and the mode — two runs
yield the same gate sequence, line count, gate count, quantum cost and
transistor cost. -/
theorem synthesis_deterministic :
    ∀ (m : Mode) (p : Program) (c1 c2 : Circuit),
      synthesize m p = some c1 → synthesize m p = some c2 →
      c1.gates = c2.gates ∧ c1.numQubits = c2.numQubits ∧
        c1.numOps = c2.numOps ∧ quantumCost c1 = quantumCost c2 ∧
        transistorCost c1 = transistorCost c2 := by
  intro m p c1 c2 h1 h2
  have h := h1.symm.trans h2
  injection h with h
  subst h
  exact ⟨rfl, rfl, rfl, rfl, rfl⟩

/-- Witness for C3 on the concrete scenario program. -/
theorem synthesis_deterministic_witness :
    synthesize Mode.lineAware addProg = some addCircuitLA ∧
      quantumCost addCircuitLA = quantumCost addCircuitLA := by
  have hs : synthesize Mode.lineAware addProg = some addCircuitLA := by decide
  exact ⟨hs, (synthesis_deterministic Mode.lineAware addProg
    addCircuitLA addCircuitLA hs hs).2.2.2.1⟩

/-! ### Undeclared variables are rejected (claim C5) -/

theorem diagsFrom_ne_nil (names : List String) :
    ∀ (stmts : List Stmt) (i : Nat) (s : Stmt) (n : String),
      s ∈ stmts → n ∈ referencedVars s → n ∉ names →
      diagsFrom names i stmts ≠ [] := by
  intro stmts
  induction stmts with
  | nil => intro i s n hs; simp at hs
  | cons s0 rest ih =>
    intro i s n hs hn hnames
    unfold diagsFrom
    rcases List.mem_cons.mp hs with he | hrest
    · subst he
      intro hnil
      rcases List.append_eq_nil.mp hnil with ⟨h1, _⟩
      have hmem : n ∈ (referencedVars s).filter (fun n => decide (n ∉ names)) :=
        List.mem_filter.mpr ⟨hn, by simp [hnames]⟩
      have : (⟨i, "undeclared variable " ++ n⟩ : Diagnostic) ∈
          ((referencedVars s).filter (fun n => decide (n ∉ names))).map
            (fun n => (⟨i, "undeclared variable " ++ n⟩ : Diagnostic)) :=
        List.mem_map_of_mem _ hmem
      rw [h1] at this
      simp at this
    · intro hnil
      rcases List.append_eq_nil.mp hnil with ⟨_, h2⟩
      exact ih (i + 1) s n hrest hn hnames h2

/-- C5: a program referencing an undeclared variable yields a non-empty
diagnostic list (as a value), and both synthesis entry points refuse to run
on it, producing no circuit. -/
theorem undeclared_rejected :
    ∀ (p : Program) (s : Stmt) (n : String),
      s ∈ p.stmts → n ∈ referencedVars s → n ∉ p.decls.map VarDecl.name →
      semanticDiagnostics p ≠ [] ∧
        synthesize .lineAware p = none ∧ synthesize .costAware p = none := by
  intro p s n hs hn hnames
  have hd : semanticDiagnostics p ≠ [] :=
    diagsFrom_ne_nil (p.decls.map VarDecl.name) p.stmts 0 s n hs hn hnames
  refine ⟨hd, ?_, ?_⟩ <;>
    · unfold synthesize
      rw [if_neg hd]

/-- Witness for C5: swapping a declared `a` with an undeclared `x`. -/
theorem undeclared_rejected_witness :
    semanticDiagnostics ⟨[⟨"a", 2, .input⟩], [.swapStmt "a" "x"]⟩ ≠ [] ∧
      synthesize .lineAware ⟨[⟨"a", 2, .input⟩], [.swapStmt "a" "x"]⟩ = none ∧
      synthesize .costAware ⟨[⟨"a", 2, .input⟩], [.swapStmt "a" "x"]⟩ = none :=
  undeclared_rejected ⟨[⟨"a", 2, .input⟩], [.swapStmt "a" "x"]⟩
    (.swapStmt "a" "x") "x" (by decide) (by decide) (by decide)

/-! ### Allocator and engine invariants -/

theorem offsetOfAux_bound : ∀ (decls : List VarDecl) (acc : Nat) (n : String)
    (o w : Nat), offsetOfAux acc decls n = some (o, w) →
    acc ≤ o ∧ o + w ≤ acc + dataLinesOf decls := by
  intro decls
  induction decls with
  | nil => intro acc n o w h; simp [offsetOfAux] at h
  | cons dd ds ih =>
    intro acc n o w h
    unfold offsetOfAux at h
    by_cases he : dd.name = n
    · rw [if_pos he] at h
      injection h with h
      simp only [Prod.ext_iff] at h
      obtain ⟨h1, h2⟩ := h
      simp [dataLinesOf]
      omega
    · rw [if_neg he] at h
      have := ih (acc + dd.width) n o w h
      simp [dataLinesOf] at this ⊢
      omega

theorem offsetOf_bound (decls : List VarDecl) (n : String) (o w : Nat)
    (h : offsetOf decls n = some (o, w)) : o + w ≤ dataLinesOf decls := by
  have := offsetOfAux_bound decls 0 n o w h
  omega

theorem offsetOfAux_disjoint : ∀ (decls : List VarDecl) (acc : Nat)
    (n1 n2 : String) (o1 w1 o2 w2 : Nat), n1 ≠ n2 →
    offsetOfAux acc decls n1 = some (o1, w1) →
    offsetOfAux acc decls n2 = some (o2, w2) →
    o1 + w1 ≤ o2 ∨ o2 + w2 ≤ o1 := by
  intro decls
  induction decls with
  | nil => intro acc n1 n2 o1 w1 o2 w2 hne h1; simp [offsetOfAux] at h1
  | cons dd ds ih =>
    intro acc n1 n2 o1 w1 o2 w2 hne h1 h2
    unfold offsetOfAux at h1 h2
    by_cases he1 : dd.name = n1
    · rw [if_pos he1] at h1
      have he2 : ¬ dd.name = n2 := by rw [he1]; exact hne
      rw [if_neg he2] at h2
      injection h1 with h1
      simp only [Prod.ext_iff] at h1
      have hb := (offsetOfAux_bound ds (acc + dd.width) n2 o2 w2 h2).1
      left
      omega
    · rw [if_neg he1] at h1
      by_cases he2 : dd.name = n2
      · rw [if_pos he2] at h2
        injection h2 with h2
        simp only [Prod.ext_iff] at h2
        have hb := (offsetOfAux_bound ds (acc + dd.width) n1 o1 w1 h1).1
        right
        omega
      · rw [if_neg he2] at h2
        exact ih (acc + dd.width) n1 n2 o1 w1 o2 w2 hne h1 h2

theorem offsetOf_disjoint (decls : List VarDecl) (n1 n2 : String)
    (o1 w1 o2 w2 : Nat) (hne : n1 ≠ n2)
    (h1 : offsetOf decls n1 = some (o1, w1))
    (h2 : offsetOf decls n2 = some (o2, w2)) :
    o1 + w1 ≤ o2 ∨ o2 + w2 ≤ o1 :=
  offsetOfAux_disjoint decls 0 n1 n2 o1 w1 o2 w2 hne h1 h2

theorem acquireTemp_spec (m : Mode) (d : Nat) (st : SynthState)
    (t : Nat) (st' : SynthState) (h : StInvBase d st)
    (he : acquireTemp m st = (t, st')) :
    d ≤ t ∧ t < st'.lines ∧ t ∉ st'.freeTemps ∧
      (t ∈ st.freeTemps ∨ st.lines ≤ t) ∧
      st.lines ≤ st'.lines ∧ st'.lines ≤ st.lines + 1 ∧
      (∀ u ∈ st'.freeTemps, u ∈ st.freeTemps) ∧
      st'.gates = st.gates ∧ StInvBase d st' := by
  obtain ⟨lines, ft, gates⟩ := st
  obtain ⟨hd, hft, hnd⟩ := h
  simp only at hd hft hnd
  have fresh : ((lines, { lines := lines + 1, freeTemps := ft, gates := gates }) :
        Nat × SynthState) = (t, st') →
      d ≤ t ∧ t < st'.lines ∧ t ∉ st'.freeTemps ∧
        (t ∈ ft ∨ lines ≤ t) ∧
        lines ≤ st'.lines ∧ st'.lines ≤ lines + 1 ∧
        (∀ u ∈ st'.freeTemps, u ∈ ft) ∧
        st'.gates = gates ∧ StInvBase d st' := by
    intro hfr
    injection hfr with h1 h2
    subst h1
    subst h2
    refine ⟨hd, by simp, ?_, Or.inr le_rfl, by simp, le_rfl,
      fun u hu => hu, rfl, hd.trans (by simp), fun u hu => ?_, hnd⟩
    · intro hmem
      exact absurd (hft _ hmem).2 (by omega)
    · have := hft u hu
      exact ⟨this.1, by simp only []; omega⟩
  cases m with
  | lineAware =>
    cases ft with
    | nil =>
      simp only [acquireTemp] at he
      exact fresh he
    | cons t0 rest =>
      simp only [acquireTemp] at he
      injection he with h1 h2
      subst h1
      subst h2
      have hth := hft t0 (by simp)
      obtain ⟨hnotin, hndrest⟩ := List.nodup_cons.mp hnd
      exact ⟨hth.1, hth.2, hnotin, Or.inl (by simp), le_rfl, by simp,
        fun u hu => by simp [hu], rfl,
        hd, fun u hu => hft u (by simp [hu]), hndrest⟩
  | costAware =>
    simp only [acquireTemp] at he
    exact fresh he

theorem acquireTemps_spec (m : Mode) (d : Nat) :
    ∀ (n : Nat) (st : SynthState) (ts : List Nat) (st' : SynthState),
      StInvBase d st → acquireTemps m st n = (ts, st') →
      AcqSpec d n st ts st' := by
  intro n
  induction n with
  | zero =>
    intro st ts st' h he
    simp only [acquireTemps] at he
    injection he with h1 h2
    subst h1
    subst h2
    exact ⟨rfl, le_rfl, by omega, List.nodup_nil, by simp, by simp, by simp,
      fun t ht => ht, rfl, h⟩
  | succ n ih =>
    intro st ts st' h he
    rcases hp : acquireTemp m st with ⟨t0, st1⟩
    rcases hq : acquireTemps m st1 n with ⟨ts1, st2⟩
    simp only [acquireTemps, hp, hq] at he
    injection he with h1 h2
    subst h1
    subst h2
    obtain ⟨ha1, ha2, ha3, ha4, ha5, ha6, ha7, ha8, ha9⟩ :=
      acquireTemp_spec m d st t0 st1 h hp
    have hs2 := ih st1 ts1 st2 ha9 hq
    refine ⟨by simp [hs2.len], ha5.trans hs2.linesLe, ?_, ?_, ?_, ?_, ?_, ?_, ?_, hs2.inv⟩
    · have := hs2.linesGrow
      omega
    · rw [List.nodup_cons]
      refine ⟨fun hmem => ?_, hs2.nodup⟩
      rcases hs2.src t0 hmem with hin | hge
      · exact ha3 hin
      · exact absurd ha2 (by omega)
    · intro t ht
      rcases List.mem_cons.mp ht with hh | hh
      · subst hh
        exact ⟨ha1, lt_of_lt_of_le ha2 hs2.linesLe⟩
      · exact hs2.range t hh
    · intro t ht
      rcases List.mem_cons.mp ht with hh | hh
      · subst hh
        exact fun hmem => ha3 (hs2.freeSub t hmem)
      · exact hs2.notFree t hh
    · intro t ht
      rcases List.mem_cons.mp ht with hh | hh
      · subst hh
        exact ha4
      · rcases hs2.src t hh with hin | hge
        · exact Or.inl (ha7 t hin)
        · exact Or.inr (ha5.trans hge)
    · exact fun t ht => ha7 t (hs2.freeSub t ht)
    · rw [hs2.gatesEq, ha8]

theorem acquireTemp_cost (st : SynthState) :
    acquireTemp .costAware st = (st.lines, { st with lines := st.lines + 1 }) := by
  obtain ⟨lines, ft, gates⟩ := st
  cases ft <;> rfl

theorem acquireTemps_cost : ∀ (n : Nat) (st : SynthState),
    (acquireTemps .costAware st n).2.lines = st.lines + n := by
  intro n
  induction n with
  | zero => intro st; rfl
  | succ n ih =>
    intro st
    simp only [acquireTemps, acquireTemp_cost]
    rw [ih]
    simp
    omega

/-! ### Shape of the emitted gate chunks -/

theorem mem_swapGates (oa ob w : Nat) (g : Gate) (h : g ∈ swapGates oa ob w) :
    ∃ k, k < w ∧ (g = cnot (oa + k) (ob + k) ∨ g = cnot (ob + k) (oa + k)) := by
  unfold swapGates at h
  rcases List.mem_flatMap.mp h with ⟨k, hk, hg⟩
  refine ⟨k, List.mem_range.mp hk, ?_⟩
  simp only [List.mem_cons, List.not_mem_nil, or_false] at hg
  rcases hg with h | h | h
  · exact Or.inl h
  · exact Or.inr h
  · exact Or.inl h

theorem mem_carryGates (la lb : Nat → Nat) (ts : List Nat) (w : Nat) (g : Gate)
    (h : g ∈ carryGates la lb ts w) :
    ∃ k, k < w - 1 ∧
      (g = toffoli (la k) (lb k) (ts.getD (k + 1) 0) ∨
       g = toffoli (la k) (ts.getD k 0) (ts.getD (k + 1) 0) ∨
       g = toffoli (lb k) (ts.getD k 0) (ts.getD (k + 1) 0)) := by
  unfold carryGates at h
  rcases List.mem_flatMap.mp h with ⟨k, hk, hg⟩
  refine ⟨k, List.mem_range.mp hk, ?_⟩
  simp only [List.mem_cons, List.not_mem_nil, or_false] at hg
  exact hg

theorem mem_sumGates (la lb : Nat → Nat) (ts : List Nat) (w : Nat) (g : Gate)
    (h : g ∈ sumGates la lb ts w) :
    ∃ k, k < w ∧ (g = cnot (la k) (ts.getD k 0) ∨ g = cnot (lb k) (ts.getD k 0)) := by
  unfold sumGates at h
  rcases List.mem_flatMap.mp h with ⟨k, hk, hg⟩
  refine ⟨k, List.mem_range.mp hk, ?_⟩
  simp only [List.mem_cons, List.not_mem_nil, or_false] at hg
  exact hg

theorem mem_xorFromTemps (ts : List Nat) (lc : Nat → Nat) (w : Nat) (g : Gate)
    (h : g ∈ xorFromTemps ts lc w) :
    ∃ k, k < w ∧ g = cnot (ts.getD k 0) (lc k) := by
  unfold xorFromTemps at h
  rcases List.mem_map.mp h with ⟨k, hk, hg⟩
  exact ⟨k, by simpa using hk, hg.symm⟩

theorem gateValid_cnot (c t n : Nat) (hc : c < n) (ht : t < n) (hne : c ≠ t) :
    GateValid (cnot c t) n := by
  refine ⟨ht, ?_, ?_⟩ <;> simp [cnot]
  · exact hc
  · omega

theorem gateValid_toffoli (c1 c2 t n : Nat) (h1 : c1 < n) (h2 : c2 < n)
    (ht : t < n) (hne1 : c1 ≠ t) (hne2 : c2 ≠ t) :
    GateValid (toffoli c1 c2 t) n := by
  refine ⟨ht, ?_, ?_⟩ <;> simp [toffoli]
  · exact ⟨h1, h2⟩
  · omega

theorem gateValid_mono (g : Gate) (n n' : Nat) (h : GateValid g n) (hle : n ≤ n') :
    GateValid g n' :=
  ⟨lt_of_lt_of_le h.1 hle, fun c hc => lt_of_lt_of_le (h.2.1 c hc) hle, h.2.2⟩

theorem ts_get_mem (ts : List Nat) (w k : Nat) (hlen : ts.length = w)
    (hk : k < w) : ts.getD k 0 ∈ ts := by
  rw [List.getD_eq_getElem ts 0 (by omega)]
  exact List.getElem_mem _

theorem ts_get_ne (ts : List Nat) (w k k' : Nat) (hlen : ts.length = w)
    (hk : k < w) (hk' : k' < w) (hne : k ≠ k') (hnd : ts.Nodup) :
    ts.getD k 0 ≠ ts.getD k' 0 := by
  rw [List.getD_eq_getElem ts 0 (by omega), List.getD_eq_getElem ts 0 (by omega)]
  intro he
  exact hne (hnd.getElem_inj_iff.mp he)

theorem swapGates_valid (n oa ob w : Nat) (hoa : oa + w ≤ n) (hob : ob + w ≤ n)
    (hdisj : ∀ k k', k < w → k' < w → oa + k ≠ ob + k') :
    ∀ g ∈ swapGates oa ob w, GateValid g n := by
  intro g hg
  rcases mem_swapGates oa ob w g hg with ⟨k, hk, hcase⟩
  rcases hcase with h | h <;> subst h
  · exact gateValid_cnot _ _ n (by omega) (by omega) (hdisj k k hk hk)
  · exact gateValid_cnot _ _ n (by omega) (by omega) (fun he => hdisj k k hk hk he.symm)

theorem addIntoTemps_valid (d n w : Nat) (la lb : Nat → Nat) (ts : List Nat)
    (hla : ∀ k, k < w → la k < d) (hlb : ∀ k, k < w → lb k < d)
    (hlen : ts.length = w) (hnd : ts.Nodup)
    (hts : ∀ t ∈ ts, d ≤ t ∧ t < n) (hdn : d ≤ n) :
    ∀ g ∈ addIntoTemps la lb ts w, GateValid g n := by
  intro g hg
  unfold addIntoTemps at hg
  rcases List.mem_append.mp hg with hg | hg
  · rcases mem_carryGates la lb ts w g hg with ⟨k, hk, hcase⟩
    have hts1 := hts _ (ts_get_mem ts w (k + 1) hlen (by omega))
    have htsk := hts _ (ts_get_mem ts w k hlen (by omega))
    have hlak := hla k (by omega)
    have hlbk := hlb k (by omega)
    have hnet := ts_get_ne ts w k (k + 1) hlen (by omega) (by omega) (by omega) hnd
    rcases hcase with h | h | h <;> subst h
    · exact gateValid_toffoli _ _ _ n (by omega) (by omega) hts1.2
        (by omega) (by omega)
    · exact gateValid_toffoli _ _ _ n (by omega) htsk.2 hts1.2
        (by omega) hnet
    · exact gateValid_toffoli _ _ _ n (by omega) htsk.2 hts1.2
        (by omega) hnet
  · rcases mem_sumGates la lb ts w g hg with ⟨k, hk, hcase⟩
    have htsk := hts _ (ts_get_mem ts w k hlen hk)
    rcases hcase with h | h <;> subst h
    · exact gateValid_cnot _ _ n (by have := hla k hk; omega) htsk.2
        (by have := hla k hk; omega)
    · exact gateValid_cnot _ _ n (by have := hlb k hk; omega) htsk.2
        (by have := hlb k hk; omega)

theorem xorFromTemps_valid (d n w : Nat) (lc : Nat → Nat) (ts : List Nat)
    (hlc : ∀ k, k < w → lc k < d)
    (hlen : ts.length = w)
    (hts : ∀ t ∈ ts, d ≤ t ∧ t < n) (hdn : d ≤ n) :
    ∀ g ∈ xorFromTemps ts lc w, GateValid g n := by
  intro g hg
  rcases mem_xorFromTemps ts lc w g hg with ⟨k, hk, h⟩
  subst h
  have htsk := hts _ (ts_get_mem ts w k hlen hk)
  exact gateValid_cnot _ _ n htsk.2 (by have := hlc k hk; omega)
    (by have := hlc k hk; omega)

/-! ### What a successful statement synthesis looks like -/

theorem synthStmt_swap_elim (m : Mode) (decls : List VarDecl)
    (st st' : SynthState) (a b : String)
    (h : synthStmt m decls st (.swapStmt a b) = some st') :
    ∃ oa wa ob wb, offsetOf decls a = some (oa, wa) ∧
      offsetOf decls b = some (ob, wb) ∧ wa = wb ∧ 0 < wa ∧ a ≠ b ∧
      st' = { st with gates := st.gates ++ swapGates oa ob wa } := by
  simp only [synthStmt] at h
  split at h
  next oa wa ob wb hoa hob =>
    split at h
    next hcond =>
      injection h with h
      exact ⟨oa, wa, ob, wb, hoa, hob, hcond.1, hcond.2.1, hcond.2.2, h.symm⟩
    next hcond => exact absurd h (by simp)
  next x y hne => exact absurd h (by simp)

theorem synthStmt_add_elim (m : Mode) (decls : List VarDecl)
    (st st' : SynthState) (c a b : String)
    (h : synthStmt m decls st (.assignAdd c a b) = some st') :
    ∃ oc wc oa wa ob wb ts st1,
      offsetOf decls c = some (oc, wc) ∧ offsetOf decls a = some (oa, wa) ∧
      offsetOf decls b = some (ob, wb) ∧
      wa = wc ∧ wb = wc ∧ 0 < wc ∧ c ≠ a ∧ c ≠ b ∧
      acquireTemps m st wc = (ts, st1) ∧
      st' = releaseTemps m ts { st1 with gates :=
        (st1.gates ++ addIntoTemps (lineForBit oa wa) (lineForBit ob wb) ts wc ++
          xorFromTemps ts (lineForBit oc wc) wc ++
            (if m = Mode.lineAware then
              (addIntoTemps (lineForBit oa wa) (lineForBit ob wb) ts wc).reverse
            else [])) } := by
  simp only [synthStmt] at h
  split at h
  next oc wc oa wa ob wb hoc hoa hob =>
    split at h
    next hcond =>
      rcases hacq : acquireTemps m st wc with ⟨ts, st1⟩
      simp only [hacq] at h
      injection h with h
      exact ⟨oc, wc, oa, wa, ob, wb, ts, st1, hoc, hoa, hob, hcond.1,
        hcond.2.1, hcond.2.2.1, hcond.2.2.2.1, hcond.2.2.2.2, hacq, h.symm⟩
    next hcond => exact absurd h (by simp)
  next x y z hne => exact absurd h (by simp)

theorem synthStmt_inv (m : Mode) (decls : List VarDecl) (st st' : SynthState)
    (s : Stmt) (h : synthStmt m decls st s = some st')
    (hinv : StInv (dataLinesOf decls) st) :
    StInv (dataLinesOf decls) st' ∧ st.lines ≤ st'.lines := by
  obtain ⟨hbase, hgates⟩ := hinv
  cases s with
  | swapStmt a b =>
    rcases synthStmt_swap_elim m decls st st' a b h with
      ⟨oa, wa, ob, wb, hoa, hob, hw, hwpos, hne, hst⟩
    subst hst
    subst hw
    have hbA := offsetOf_bound decls a oa wa hoa
    have hbB := offsetOf_bound decls b ob wa hob
    have hd := hbase.1
    refine ⟨⟨hbase, ?_⟩, le_rfl⟩
    intro g hg
    rcases List.mem_append.mp hg with hg | hg
    · exact hgates g hg
    · refine swapGates_valid st.lines oa ob wa (by omega) (by omega) ?_ g hg
      intro k k' hk hk' he
      rcases offsetOf_disjoint decls a b oa wa ob wa hne hoa hob with hd2 | hd2 <;> omega
  | assignAdd c a b =>
    rcases synthStmt_add_elim m decls st st' c a b h with
      ⟨oc, wc, oa, wa, ob, wb, ts, st1, hoc, hoa, hob, hwa, hwb, hwpos, hca, hcb,
        hacq, hst⟩
    subst hst
    have hspec := acquireTemps_spec m (dataLinesOf decls) wc st ts st1 hbase hacq
    have hbC := offsetOf_bound decls c oc wc hoc
    have hbA := offsetOf_bound decls a oa wa hoa
    have hbB := offsetOf_bound decls b ob wb hob
    have hd1 : dataLinesOf decls ≤ st1.lines := hspec.inv.1
    have hla : ∀ k, k < wc → lineForBit oa wa k < dataLinesOf decls := by
      intro k hk
      unfold lineForBit
      omega
    have hlb : ∀ k, k < wc → lineForBit ob wb k < dataLinesOf decls := by
      intro k hk
      unfold lineForBit
      omega
    have hlc : ∀ k, k < wc → lineForBit oc wc k < dataLinesOf decls := by
      intro k hk
      unfold lineForBit
      omega
    have hvAdd := addIntoTemps_valid (dataLinesOf decls) st1.lines wc
      (lineForBit oa wa) (lineForBit ob wb) ts hla hlb hspec.len hspec.nodup
      hspec.range hd1
    have hvXor := xorFromTemps_valid (dataLinesOf decls) st1.lines wc
      (lineForBit oc wc) ts hlc hspec.len hspec.range hd1
    have hnewgates : ∀ g ∈ st1.gates ++
        addIntoTemps (lineForBit oa wa) (lineForBit ob wb) ts wc ++
        xorFromTemps ts (lineForBit oc wc) wc ++
        (if m = Mode.lineAware then
          (addIntoTemps (lineForBit oa wa) (lineForBit ob wb) ts wc).reverse
        else []), GateValid g st1.lines := by
      intro g hg
      rcases List.mem_append.mp hg with hg | hg
      · rcases List.mem_append.mp hg with hg | hg
        · rcases List.mem_append.mp hg with hg | hg
          · exact gateValid_mono _ _ _ (hgates g (hspec.gatesEq ▸ hg)) hspec.linesLe
          · exact hvAdd g hg
        · exact hvXor g hg
      · by_cases hm : m = Mode.lineAware
        · rw [if_pos hm] at hg
          exact hvAdd g (List.mem_reverse.mp hg)
        · rw [if_neg hm] at hg
          simp at hg
    cases m with
    | lineAware =>
      refine ⟨⟨⟨hd1, ?_, ?_⟩, hnewgates⟩, hspec.linesLe⟩
      · intro t ht
        rcases List.mem_append.mp ht with ht | ht
        · exact hspec.range t ht
        · exact hspec.inv.2.1 t ht
      · exact hspec.nodup.append hspec.inv.2.2
          (fun t ht1 ht2 => hspec.notFree t ht1 ht2)
    | costAware =>
      exact ⟨⟨hspec.inv, hnewgates⟩, hspec.linesLe⟩

theorem synthFold_inv (m : Mode) (decls : List VarDecl) :
    ∀ (stmts : List Stmt) (st st' : SynthState),
      synthFold m decls st stmts = some st' →
      StInv (dataLinesOf decls) st →
      StInv (dataLinesOf decls) st' ∧ st.lines ≤ st'.lines := by
  intro stmts
  induction stmts with
  | nil =>
    intro st st' h hinv
    simp only [synthFold] at h
    injection h with h
    subst h
    exact ⟨hinv, le_rfl⟩
  | cons s rest ih =>
    intro st st' h hinv
    simp only [synthFold] at h
    split at h
    next st1 hs =>
      obtain ⟨hinv1, hle1⟩ := synthStmt_inv m decls st st1 s hs hinv
      obtain ⟨hinv2, hle2⟩ := ih st1 st' h hinv1
      exact ⟨hinv2, hle1.trans hle2⟩
    next hs => exact absurd h (by simp)

theorem synthesize_valid (m : Mode) (p : Program) (c : Circuit)
    (h : synthesize m p = some c) :
    (∀ g ∈ c.gates, GateValid g c.lines) ∧ c.dataLines ≤ c.lines ∧
      c.dataLines = dataLinesOf p.decls := by
  unfold synthesize at h
  split at h
  next hdiag =>
    split at h
    next st hfold =>
      injection h with h
      subst h
      have hinit : StInv (dataLinesOf p.decls) ⟨dataLinesOf p.decls, [], []⟩ :=
        ⟨⟨le_rfl, by simp, List.nodup_nil⟩, by simp⟩
      obtain ⟨⟨hbase, hgates⟩, hle⟩ :=
        synthFold_inv m p.decls p.stmts _ st hfold hinit
      exact ⟨hgates, hbase.1, rfl⟩
    next hfold => exact absurd h (by simp)
  next hdiag => exact absurd h (by simp)

/-- C8: every gate of a successfully synthesized circuit (either policy) has
its target and all its control lines strictly below the circuit's line count,
and never lists its target among its controls. -/
theorem gate_width_invariants :
    ∀ (m : Mode) (p : Program) (c : Circuit), synthesize m p = some c →
      ∀ g ∈ c.gates, g.target < c.numQubits ∧
        (∀ ct ∈ g.controls, ct.line < c.numQubits) ∧
        g.target ∉ g.controls.map Control.line := by
  intro m p c h g hg
  exact (synthesize_valid m p c h).1 g hg

/-- Witness for C8: the first gate of the line-aware scenario circuit. -/
theorem gate_width_invariants_witness :
    synthesize Mode.lineAware addProg = some addCircuitLA ∧
      (toffoli 1 3 7).target < addCircuitLA.numQubits ∧
      (toffoli 1 3 7).target ∉ (toffoli 1 3 7).controls.map Control.line := by
  have hs : synthesize Mode.lineAware addProg = some addCircuitLA := by decide
  have hgw := gate_width_invariants Mode.lineAware addProg addCircuitLA hs
    (toffoli 1 3 7) (by decide)
  exact ⟨hs, hgw.1, hgw.2.2⟩

/-! ### Reversibility of simulation (claim C1) -/

/-- C1: for every successfully synthesized circuit and every input state of
matching length, forward simulation followed by reverse simulation returns
the input state exactly. -/
theorem reversibility :
    ∀ (m : Mode) (p : Program) (c : Circuit) (s : List Bool),
      synthesize m p = some c → s.length = c.lines →
      (simulate c s false >>= fun out => simulate c out true) = Except.ok s := by
  intro m p c s hsynth hlen
  have hvalid := (synthesize_valid m p c hsynth).1
  have hfwd : simulate c s false =
      .ok (funToList (applyGates c.gates (listToFun s)) c.lines) := by
    unfold simulate
    rw [if_pos hlen]
    rfl
  rw [hfwd]
  show simulate c (funToList (applyGates c.gates (listToFun s)) c.lines) true =
    Except.ok s
  unfold simulate
  rw [if_pos (length_funToList _ _)]
  have hlave := listToFun_funToList (applyGates c.gates (listToFun s)) c.lines
  have hsub : ∀ g ∈ c.gates.reverse, ∀ j ∈ gateLines g, j < c.lines := by
    intro g hg j hj
    have hv := hvalid g (List.mem_reverse.mp hg)
    rcases List.mem_cons.mp hj with he | hmem
    · rw [he]
      exact hv.1
    · rcases List.mem_map.mp hmem with ⟨ct, hct, he⟩
      rw [← he]
      exact hv.2.1 ct hct
  have hagree : agreeOn (fun j => j < c.lines)
      (listToFun (funToList (applyGates c.gates (listToFun s)) c.lines))
      (applyGates c.gates (listToFun s)) := by
    intro j hjlt
    rw [hlave]
    simp [hjlt]
  have hcong := applyGates_congr c.gates.reverse _ _ hsub hagree
  have hinv2 := applyGates_reverse_inverse c.gates (listToFun s)
    (fun g hg => (hvalid g hg).2.2)
  have hfin : funToList (applyGates c.gates.reverse
      (listToFun (funToList (applyGates c.gates (listToFun s)) c.lines)))
      c.lines = s := by
    apply List.ext_getElem (by rw [length_funToList, hlen])
    intro i h1 h2
    have hi : i < c.lines := by rw [length_funToList] at h1; exact h1
    have hstep1 : (funToList (applyGates c.gates.reverse
        (listToFun (funToList (applyGates c.gates (listToFun s)) c.lines)))
        c.lines)[i] = applyGates c.gates.reverse
        (listToFun (funToList (applyGates c.gates (listToFun s)) c.lines)) i := by
      simp [funToList]
    rw [hstep1, hcong i hi, hinv2]
    unfold listToFun
    rw [List.getD_eq_getElem s false h2]
  show Except.ok (funToList (applyGates c.gates.reverse
    (listToFun (funToList (applyGates c.gates (listToFun s)) c.lines)))
    c.lines) = Except.ok s
  rw [hfin]

/-- Witness for C1: the line-aware scenario circuit and the scenario input
state round-trip exactly. -/
theorem reversibility_witness :
    synthesize Mode.lineAware addProg = some addCircuitLA ∧
      (simulate addCircuitLA scenarioInput false >>= fun out =>
        simulate addCircuitLA out true) = Except.ok scenarioInput := by
  have hs : synthesize Mode.lineAware addProg = some addCircuitLA := by decide
  exact ⟨hs, reversibility Mode.lineAware addProg addCircuitLA scenarioInput hs
    (by decide)⟩

/-! ### Line-count monotonicity across policies (claim C7) -/

theorem acquireTemp_lines (m : Mode) (st : SynthState) :
    st.lines ≤ (acquireTemp m st).2.lines ∧
      (acquireTemp m st).2.lines ≤ st.lines + 1 := by
  obtain ⟨lines, ft, gates⟩ := st
  cases m <;> cases ft <;> simp [acquireTemp]

theorem acquireTemps_lines (m : Mode) : ∀ (n : Nat) (st : SynthState),
    st.lines ≤ (acquireTemps m st n).2.lines ∧
      (acquireTemps m st n).2.lines ≤ st.lines + n := by
  intro n
  induction n with
  | zero => intro st; exact ⟨le_rfl, by simp [acquireTemps]⟩
  | succ n ih =>
    intro st
    have h1 := acquireTemp_lines m st
    have h2 := ih (acquireTemp m st).2
    simp only [acquireTemps]
    constructor <;> omega

theorem releaseTemps_lines (m : Mode) (ts : List Nat) (st : SynthState) :
    (releaseTemps m ts st).lines = st.lines := by
  cases m <;> rfl

theorem synthStmt_lines_rel (decls : List VarDecl)
    (st1 st2 st1' st2' : SynthState) (s : Stmt)
    (h1 : synthStmt .lineAware decls st1 s = some st1')
    (h2 : synthStmt .costAware decls st2 s = some st2')
    (hle : st1.lines ≤ st2.lines) : st1'.lines ≤ st2'.lines := by
  cases s with
  | swapStmt a b =>
    rcases synthStmt_swap_elim _ decls st1 st1' a b h1 with
      ⟨oa, wa, ob, wb, hoa, hob, hw, hwpos, hne, hst1⟩
    rcases synthStmt_swap_elim _ decls st2 st2' a b h2 with
      ⟨oa2, wa2, ob2, wb2, hoa2, hob2, hw2, hwpos2, hne2, hst2⟩
    subst hst1
    subst hst2
    exact hle
  | assignAdd c a b =>
    rcases synthStmt_add_elim _ decls st1 st1' c a b h1 with
      ⟨oc, wc, oa, wa, ob, wb, ts, stA, hoc, hoa, hob, hwa, hwb, hwpos, hca, hcb,
        hacq1, hst1⟩
    rcases synthStmt_add_elim _ decls st2 st2' c a b h2 with
      ⟨oc2, wc2, oa2, wa2, ob2, wb2, ts2, stB, hoc2, hoa2, hob2, hwa2, hwb2,
        hwpos2, hca2, hcb2, hacq2, hst2⟩
    have hwc : wc2 = wc := by
      rw [hoc] at hoc2
      injection hoc2 with hoc2
      injection hoc2 with h1 h2
      exact h2.symm
    subst hwc
    subst hst1
    subst hst2
    rw [releaseTemps_lines, releaseTemps_lines]
    have hA := (acquireTemps_lines .lineAware wc2 st1).2
    rw [hacq1] at hA
    have hB := acquireTemps_cost wc2 st2
    rw [hacq2] at hB
    simp only at hA hB ⊢
    omega

theorem synthFold_lines_rel (decls : List VarDecl) :
    ∀ (stmts : List Stmt) (st1 st2 st1' st2' : SynthState),
      synthFold .lineAware decls st1 stmts = some st1' →
      synthFold .costAware decls st2 stmts = some st2' →
      st1.lines ≤ st2.lines → st1'.lines ≤ st2'.lines := by
  intro stmts
  induction stmts with
  | nil =>
    intro st1 st2 st1' st2' h1 h2 hle
    simp only [synthFold] at h1 h2
    injection h1 with h1
    injection h2 with h2
    subst h1
    subst h2
    exact hle
  | cons s rest ih =>
    intro st1 st2 st1' st2' h1 h2 hle
    simp only [synthFold] at h1 h2
    split at h1
    next stA hsA =>
      split at h2
      next stB hsB =>
        exact ih stA stB st1' st2' h1 h2
          (synthStmt_lines_rel decls st1 st2 stA stB s hsA hsB hle)
      next hsB => exact absurd h2 (by simp)
    next hsA => exact absurd h1 (by simp)

/-- C7: when both policies succeed on a program, the cost-aware circuit has
at least as many lines as the line-aware circuit. -/
theorem cost_policy_line_monotonicity :
    ∀ (p : Program) (c1 c2 : Circuit),
      synthesize .lineAware p = some c1 → synthesize .costAware p = some c2 →
      c1.numQubits ≤ c2.numQubits := by
  intro p c1 c2 h1 h2
  unfold synthesize at h1 h2
  split at h1
  next hdiag =>
    rw [if_pos hdiag] at h2
    split at h1
    next stA hfold1 =>
      split at h2
      next stB hfold2 =>
        injection h1 with h1
        injection h2 with h2
        subst h1
        subst h2
        exact synthFold_lines_rel p.decls p.stmts _ _ stA stB hfold1 hfold2 le_rfl
      next hfold2 => exact absurd h2 (by simp)
    next hfold1 => exact absurd h1 (by simp)
  next hdiag => exact absurd h1 (by simp)

/-- Witness for C7 on the two-additions program, where line-aware reuse makes
the inequality strict (8 versus 10 lines). -/
theorem cost_policy_line_monotonicity_witness :
    synthesize Mode.lineAware twoAddsProg = some twoAddsCircuitLA ∧
      synthesize Mode.costAware twoAddsProg = some twoAddsCircuitCA ∧
      twoAddsCircuitLA.numQubits ≤ twoAddsCircuitCA.numQubits := by
  have hs1 : synthesize Mode.lineAware twoAddsProg = some twoAddsCircuitLA := by
    decide
  have hs2 : synthesize Mode.costAware twoAddsProg = some twoAddsCircuitCA := by
    decide
  exact ⟨hs1, hs2,
    cost_policy_line_monotonicity twoAddsProg twoAddsCircuitLA twoAddsCircuitCA
      hs1 hs2⟩

/-! ### Swap correctness (claim C6) -/

theorem applyGate_cnot_eq (ci t : Nat) (s : Nat → Bool) :
    applyGate (cnot ci t) s = fun x => if x = t then ((s ci).xor (s t)) else s x := by
  funext x
  unfold applyGate cnot
  simp only [List.all_cons, List.all_nil, Bool.and_true, beq_true]
  by_cases hci : s ci = true
  · rw [if_pos hci, hci]
    by_cases hxt : x = t <;> simp [hxt]
  · rw [if_neg hci]
    have hf : s ci = false := by revert hci; cases s ci <;> simp
    rw [hf]
    by_cases hxt : x = t <;> simp [hxt]

theorem swapBlock_apply (i j : Nat) (hne : i ≠ j) (s : Nat → Bool) :
    applyGates [cnot i j, cnot j i, cnot i j] s = swapAt i j s := by
  funext x
  simp only [applyGates, List.foldl_cons, List.foldl_nil]
  rw [applyGate_cnot_eq, applyGate_cnot_eq, applyGate_cnot_eq]
  unfold swapAt
  by_cases hxi : x = i
  · subst hxi
    simp only [if_pos rfl, if_neg hne, if_neg (Ne.symm hne)]
    cases s x <;> cases s j <;> rfl
  · by_cases hxj : x = j
    · subst hxj
      simp only [if_pos rfl, if_neg hne, if_neg (Ne.symm hne), if_neg hxi]
      cases s i <;> cases s x <;> rfl
    · simp only [if_neg hxi, if_neg hxj]

theorem swapGates_apply (oa ob : Nat) : ∀ (w : Nat) (s : Nat → Bool),
    (∀ k k', k < w → k' < w → oa + k ≠ ob + k') →
    (∀ k, k < w → applyGates (swapGates oa ob w) s (oa + k) = s (ob + k)) ∧
    (∀ k, k < w → applyGates (swapGates oa ob w) s (ob + k) = s (oa + k)) ∧
    (∀ x, (∀ k, k < w → x ≠ oa + k ∧ x ≠ ob + k) →
      applyGates (swapGates oa ob w) s x = s x) := by
  intro w
  induction w with
  | zero =>
    intro s hd
    exact ⟨fun k hk => absurd hk (by omega), fun k hk => absurd hk (by omega),
      fun x hx => rfl⟩
  | succ w ih =>
    intro s hd
    have hsplit : swapGates oa ob (w + 1) = swapGates oa ob w ++
        [cnot (oa + w) (ob + w), cnot (ob + w) (oa + w), cnot (oa + w) (ob + w)] := by
      unfold swapGates
      rw [List.range_succ]
      simp
    rw [hsplit, applyGates_append]
    have hdw : ∀ k k', k < w → k' < w → oa + k ≠ ob + k' := fun k k' hk hk' =>
      hd k k' (by omega) (by omega)
    obtain ⟨ih1, ih2, ih3⟩ := ih s hdw
    rw [swapBlock_apply (oa + w) (ob + w) (hd w w (by omega) (by omega))]
    refine ⟨?_, ?_, ?_⟩
    · intro k hk
      by_cases hkw : k = w
      · subst hkw
        unfold swapAt
        rw [if_pos rfl]
        refine ih3 (ob + k) (fun k' hk' => ⟨fun he => ?_, by omega⟩)
        exact hd k' k (by omega) (by omega) he.symm
      · unfold swapAt
        rw [if_neg (by omega), if_neg (hd k w (by omega) (by omega))]
        exact ih1 k (by omega)
    · intro k hk
      by_cases hkw : k = w
      · subst hkw
        unfold swapAt
        rw [if_neg (fun he => hd k k (by omega) (by omega) he.symm), if_pos rfl]
        refine ih3 (oa + k) (fun k' hk' => ⟨by omega, fun he => ?_⟩)
        exact hd k k' (by omega) (by omega) he
      · unfold swapAt
        rw [if_neg (fun he => hd w k (by omega) (by omega) he.symm),
          if_neg (by omega)]
        exact ih2 k (by omega)
    · intro x hx
      unfold swapAt
      rw [if_neg (hx w (by omega)).1, if_neg (hx w (by omega)).2]
      exact ih3 x (fun k hk => hx k (by omega))

theorem swapGates_length (oa ob : Nat) : ∀ (w : Nat),
    (swapGates oa ob w).length = 3 * w := by
  intro w
  induction w with
  | zero => rfl
  | succ w ih =>
    unfold swapGates at ih ⊢
    rw [List.range_succ]
    simp at ih ⊢
    omega

theorem synthesize_swapProg (m : Mode) (w : Nat) (hw : 0 < w) :
    synthesize m (swapProg w) =
      some ⟨dataLinesOf (swapProg w).decls, dataLinesOf (swapProg w).decls,
        [] ++ swapGates 0 (0 + w) w⟩ := by
  have hstmt : synthStmt m (swapProg w).decls
      ⟨dataLinesOf (swapProg w).decls, [], []⟩ (.swapStmt "a" "b") =
      some ⟨dataLinesOf (swapProg w).decls, [], [] ++ swapGates 0 (0 + w) w⟩ := by
    simp only [synthStmt,
      show offsetOf (swapProg w).decls "a" = some (0, w) from rfl,
      show offsetOf (swapProg w).decls "b" = some (0 + w, w) from rfl]
    rw [if_pos ⟨by simp, hw, by decide⟩]
  unfold synthesize
  rw [if_pos (show semanticDiagnostics (swapProg w) = [] from rfl)]
  have hfold : synthFold m (swapProg w).decls
      ⟨dataLinesOf (swapProg w).decls, [], []⟩ (swapProg w).stmts =
      some ⟨dataLinesOf (swapProg w).decls, [], [] ++ swapGates 0 (0 + w) w⟩ := by
    show synthFold m (swapProg w).decls _ [.swapStmt "a" "b"] = _
    simp only [synthFold, hstmt]
  rw [hfold]

/-- C6: for every width `1 ≤ w ≤ 64` and both policies, synthesizing
`a(w) <=> b(w)` yields three CNOTs per bit pair (`3w` single-control gates),
and simulating it on `a = x, b = y` returns `a = y, b = x`. -/
theorem swap_correctness :
    ∀ (m : Mode) (w : Nat), 1 ≤ w → w ≤ 64 →
      ∀ (c : Circuit) (x y : List Bool),
        synthesize m (swapProg w) = some c →
        x.length = w → y.length = w →
        c.numOps = 3 * w ∧ (∀ g ∈ c.gates, g.controls.length = 1) ∧
        simulate c (x ++ y) false = Except.ok (y ++ x) := by
  intro m w hw1 hw64 c x y hsynth hx hy
  rw [synthesize_swapProg m w hw1] at hsynth
  injection hsynth with hsynth
  subst hsynth
  have hdl : dataLinesOf (swapProg w).decls = w + (w + 0) := rfl
  refine ⟨?_, ?_, ?_⟩
  · show ([] ++ swapGates 0 (0 + w) w).length = 3 * w
    rw [List.nil_append, swapGates_length]
  · intro g hg
    rw [List.nil_append] at hg
    rcases mem_swapGates _ _ _ g hg with ⟨k, hk, hcase⟩
    rcases hcase with h | h <;> subst h <;> rfl
  · have hdisj : ∀ k k', k < w → k' < w → 0 + k ≠ (0 + w) + k' := by
      intro k k' hk hk'
      omega
    obtain ⟨hs1, hs2, hs3⟩ := swapGates_apply 0 (0 + w) w (listToFun (x ++ y)) hdisj
    unfold simulate
    rw [if_pos (by simp [hdl]; omega)]
    show Except.ok (funToList (applyGates ([] ++ swapGates 0 (0 + w) w)
      (listToFun (x ++ y))) (dataLinesOf (swapProg w).decls)) = _
    rw [List.nil_append]
    congr 1
    apply List.ext_getElem (by simp [length_funToList, hdl]; omega)
    intro i h1 h2
    rw [show (funToList (applyGates (swapGates 0 (0 + w) w) (listToFun (x ++ y)))
      (dataLinesOf (swapProg w).decls))[i] =
      applyGates (swapGates 0 (0 + w) w) (listToFun (x ++ y)) i by simp [funToList]]
    by_cases hiw : i < w
    · have hstep := hs1 i hiw
      rw [show (0 : Nat) + i = i by omega] at hstep
      rw [hstep]
      unfold listToFun
      have h2y : i < y.length := by omega
      rw [List.getD_eq_getElem _ false (by simp; omega)]
      rw [List.getElem_append _ (by simp; omega), List.getElem_append _ h2]
      rw [dif_neg (by omega), dif_pos (by omega)]
      simp only [hx, show 0 + w + i - w = i by omega]
    · have hiw2 : i < 2 * w := by
        rw [length_funToList, hdl] at h1
        omega
      have hstep := hs2 (i - w) (by omega)
      rw [show (0 + w) + (i - w) = i by omega] at hstep
      rw [hstep]
      unfold listToFun
      rw [List.getD_eq_getElem _ false (by simp; omega)]
      rw [List.getElem_append _ (by simp; omega), List.getElem_append _ h2]
      rw [dif_pos (by omega), dif_neg (by omega)]
      simp only [hy, show 0 + (i - w) = i - w by omega]

/-- Witness for C6 at width 2: swapping `a = 10` with `b = 01`. -/
theorem swap_correctness_witness :
    synthesize Mode.lineAware (swapProg 2) = some swapCircuit2 ∧
      swapCircuit2.numOps = 3 * 2 ∧
      simulate swapCircuit2 ([true, false] ++ [false, true]) false =
        Except.ok ([false, true] ++ [true, false]) := by
  have hs : synthesize Mode.lineAware (swapProg 2) = some swapCircuit2 := by decide
  have h := swap_correctness Mode.lineAware 2 (by decide) (by decide) swapCircuit2
    [true, false] [false, true] hs (by decide) (by decide)
  exact ⟨hs, h.1, h.2.2⟩

/-! ### Relabeling the emitted chunks (towards claim C2) -/

theorem flatMap_congr_mem {α β : Type} (l : List α) (f g : α → List β)
    (h : ∀ a ∈ l, f a = g a) : l.flatMap f = l.flatMap g := by
  induction l with
  | nil => rfl
  | cons a t ih =>
    simp only [List.flatMap_cons, h a (by simp),
      ih (fun x hx => h x (by simp [hx]))]

theorem relabelGate_cnot (rho : Nat → Nat) (c t : Nat) :
    relabelGate rho (cnot c t) = cnot (rho c) (rho t) := rfl

theorem relabelGate_toffoli (rho : Nat → Nat) (c1 c2 t : Nat) :
    relabelGate rho (toffoli c1 c2 t) = toffoli (rho c1) (rho c2) (rho t) := rfl

theorem relabel_carryGates (rho : Nat → Nat) (la lb : Nat → Nat)
    (ts ts' : List Nat) (w : Nat)
    (hts : ∀ k, k < w → rho (ts.getD k 0) = ts'.getD k 0)
    (hla : ∀ k, k < w → rho (la k) = la k)
    (hlb : ∀ k, k < w → rho (lb k) = lb k) :
    (carryGates la lb ts w).map (relabelGate rho) = carryGates la lb ts' w := by
  unfold carryGates
  rw [List.map_flatMap]
  apply flatMap_congr_mem
  intro k hk
  have hkw : k < w := by have := List.mem_range.mp hk; omega
  have hkw1 : k + 1 < w := by have := List.mem_range.mp hk; omega
  simp only [List.map_cons, List.map_nil, relabelGate_toffoli,
    hla k hkw, hlb k hkw, hts k hkw, hts (k + 1) hkw1]

theorem relabel_sumGates (rho : Nat → Nat) (la lb : Nat → Nat)
    (ts ts' : List Nat) (w : Nat)
    (hts : ∀ k, k < w → rho (ts.getD k 0) = ts'.getD k 0)
    (hla : ∀ k, k < w → rho (la k) = la k)
    (hlb : ∀ k, k < w → rho (lb k) = lb k) :
    (sumGates la lb ts w).map (relabelGate rho) = sumGates la lb ts' w := by
  unfold sumGates
  rw [List.map_flatMap]
  apply flatMap_congr_mem
  intro k hk
  have hkw : k < w := List.mem_range.mp hk
  simp only [List.map_cons, List.map_nil, relabelGate_cnot,
    hla k hkw, hlb k hkw, hts k hkw]

theorem relabel_addIntoTemps (rho : Nat → Nat) (la lb : Nat → Nat)
    (ts ts' : List Nat) (w : Nat)
    (hts : ∀ k, k < w → rho (ts.getD k 0) = ts'.getD k 0)
    (hla : ∀ k, k < w → rho (la k) = la k)
    (hlb : ∀ k, k < w → rho (lb k) = lb k) :
    (addIntoTemps la lb ts w).map (relabelGate rho) = addIntoTemps la lb ts' w := by
  unfold addIntoTemps
  rw [List.map_append, relabel_carryGates rho la lb ts ts' w hts hla hlb,
    relabel_sumGates rho la lb ts ts' w hts hla hlb]

theorem relabel_xorFromTemps (rho : Nat → Nat) (lc : Nat → Nat)
    (ts ts' : List Nat) (w : Nat)
    (hts : ∀ k, k < w → rho (ts.getD k 0) = ts'.getD k 0)
    (hlc : ∀ k, k < w → rho (lc k) = lc k) :
    (xorFromTemps ts lc w).map (relabelGate rho) = xorFromTemps ts' lc w := by
  unfold xorFromTemps
  rw [List.map_map]
  apply List.map_congr_left
  intro k hk
  have hkw : k < w := List.mem_range.mp hk
  simp only [Function.comp, relabelGate_cnot, hts k hkw, hlc k hkw]

/-! ### Which lines each chunk touches -/

theorem gateLines_cnot (c t : Nat) : gateLines (cnot c t) = [t, c] := rfl

theorem gateLines_toffoli (c1 c2 t : Nat) :
    gateLines (toffoli c1 c2 t) = [t, c1, c2] := rfl

theorem addIntoTemps_lines (la lb : Nat → Nat) (ts : List Nat) (w : Nat) :
    ∀ g ∈ addIntoTemps la lb ts w, ∀ j ∈ gateLines g,
      (∃ k, k < w ∧ j = la k) ∨ (∃ k, k < w ∧ j = lb k) ∨
        (∃ k, k < w ∧ j = ts.getD k 0) := by
  intro g hg j hj
  unfold addIntoTemps at hg
  rcases List.mem_append.mp hg with hg | hg
  · rcases mem_carryGates la lb ts w g hg with ⟨k, hk, hcase⟩
    rcases hcase with h | h | h <;> subst h <;>
      rw [gateLines_toffoli] at hj <;>
      simp only [List.mem_cons, List.not_mem_nil, or_false] at hj
    · rcases hj with h | h | h
      · exact Or.inr (Or.inr ⟨k + 1, by omega, h⟩)
      · exact Or.inl ⟨k, by omega, h⟩
      · exact Or.inr (Or.inl ⟨k, by omega, h⟩)
    · rcases hj with h | h | h
      · exact Or.inr (Or.inr ⟨k + 1, by omega, h⟩)
      · exact Or.inl ⟨k, by omega, h⟩
      · exact Or.inr (Or.inr ⟨k, by omega, h⟩)
    · rcases hj with h | h | h
      · exact Or.inr (Or.inr ⟨k + 1, by omega, h⟩)
      · exact Or.inr (Or.inl ⟨k, by omega, h⟩)
      · exact Or.inr (Or.inr ⟨k, by omega, h⟩)
  · rcases mem_sumGates la lb ts w g hg with ⟨k, hk, hcase⟩
    rcases hcase with h | h <;> subst h <;>
      rw [gateLines_cnot] at hj <;>
      simp only [List.mem_cons, List.not_mem_nil, or_false] at hj
    · rcases hj with h | h
      · exact Or.inr (Or.inr ⟨k, hk, h⟩)
      · exact Or.inl ⟨k, hk, h⟩
    · rcases hj with h | h
      · exact Or.inr (Or.inr ⟨k, hk, h⟩)
      · exact Or.inr (Or.inl ⟨k, hk, h⟩)

theorem addIntoTemps_targets (la lb : Nat → Nat) (ts : List Nat) (w : Nat) :
    ∀ g ∈ addIntoTemps la lb ts w, ∃ k, k < w ∧ g.target = ts.getD k 0 := by
  intro g hg
  unfold addIntoTemps at hg
  rcases List.mem_append.mp hg with hg | hg
  · rcases mem_carryGates la lb ts w g hg with ⟨k, hk, hcase⟩
    rcases hcase with h | h | h <;> subst h <;> exact ⟨k + 1, by omega, rfl⟩
  · rcases mem_sumGates la lb ts w g hg with ⟨k, hk, hcase⟩
    rcases hcase with h | h <;> subst h <;> exact ⟨k, hk, rfl⟩

theorem xorFromTemps_lines (ts : List Nat) (lc : Nat → Nat) (w : Nat) :
    ∀ g ∈ xorFromTemps ts lc w, ∀ j ∈ gateLines g,
      (∃ k, k < w ∧ j = ts.getD k 0) ∨ (∃ k, k < w ∧ j = lc k) := by
  intro g hg j hj
  rcases mem_xorFromTemps ts lc w g hg with ⟨k, hk, h⟩
  subst h
  rw [gateLines_cnot] at hj
  simp only [List.mem_cons, List.not_mem_nil, or_false] at hj
  rcases hj with h | h
  · exact Or.inr ⟨k, hk, h⟩
  · exact Or.inl ⟨k, hk, h⟩

theorem xorFromTemps_targets (ts : List Nat) (lc : Nat → Nat) (w : Nat) :
    ∀ g ∈ xorFromTemps ts lc w, ∃ k, k < w ∧ g.target = lc k := by
  intro g hg
  rcases mem_xorFromTemps ts lc w g hg with ⟨k, hk, h⟩
  subst h
  exact ⟨k, hk, rfl⟩

theorem swapGates_lines (oa ob w : Nat) :
    ∀ g ∈ swapGates oa ob w, ∀ j ∈ gateLines g,
      (∃ k, k < w ∧ j = oa + k) ∨ (∃ k, k < w ∧ j = ob + k) := by
  intro g hg j hj
  rcases mem_swapGates oa ob w g hg with ⟨k, hk, hcase⟩
  rcases hcase with h | h <;> subst h <;> rw [gateLines_cnot] at hj <;>
    simp only [List.mem_cons, List.not_mem_nil, or_false] at hj <;>
    rcases hj with h | h
  · exact Or.inr ⟨k, hk, h⟩
  · exact Or.inl ⟨k, hk, h⟩
  · exact Or.inl ⟨k, hk, h⟩
  · exact Or.inr ⟨k, hk, h⟩

theorem acquireTemps_costAware_eq : ∀ (n : Nat) (st : SynthState),
    acquireTemps .costAware st n =
      (List.range' st.lines n, { st with lines := st.lines + n }) := by
  intro n
  induction n with
  | zero => intro st; rfl
  | succ n ih =>
    intro st
    simp only [acquireTemps, acquireTemp_cost, ih]
    simp only [Prod.mk.injEq, SynthState.mk.injEq]
    refine ⟨?_, by omega, by simp⟩
    rw [List.range'_succ]

theorem synthStmt_equiv_swap (decls : List VarDecl) (stL stC stL' stC' : SynthState)
    (a b : String)
    (hL : synthStmt .lineAware decls stL (.swapStmt a b) = some stL')
    (hC : synthStmt .costAware decls stC (.swapStmt a b) = some stC')
    (hinvC : StInv (dataLinesOf decls) stC)
    (sL sC : Nat → Bool)
    (hrel : SimRel (dataLinesOf decls) stC.lines sL sC) :
    ∃ gsL gsC, stL'.gates = stL.gates ++ gsL ∧ stC'.gates = stC.gates ++ gsC ∧
      SimRel (dataLinesOf decls) stC'.lines (applyGates gsL sL) (applyGates gsC sC) := by
  obtain ⟨hdata, hLz, hCz⟩ := hrel
  rcases synthStmt_swap_elim _ decls stL stL' a b hL with
    ⟨oa, wa, ob, wb, hoa, hob, hw, hwpos, hne, hstL⟩
  rcases synthStmt_swap_elim _ decls stC stC' a b hC with
    ⟨oa2, wa2, ob2, wb2, hoa2, hob2, hw2, hwpos2, hne2, hstC⟩
  rw [hoa] at hoa2
  injection hoa2 with hoa2
  injection hoa2 with e1 e2
  subst e1
  subst e2
  rw [hob] at hob2
  injection hob2 with hob2
  injection hob2 with e3 e4
  subst e3
  subst e4
  subst hstL
  subst hstC
  have hbA := offsetOf_bound decls a oa wa hoa
  have hbB := offsetOf_bound decls b ob wb hob
  have htgt : ∀ g ∈ swapGates oa ob wa, g.target < dataLinesOf decls := by
    intro g hg
    rcases swapGates_lines oa ob wa g hg g.target (by unfold gateLines; simp) with
      ⟨k, hk, he⟩ | ⟨k, hk, he⟩ <;> omega
  refine ⟨swapGates oa ob wa, swapGates oa ob wa, rfl, rfl, ?_, ?_, ?_⟩
  · intro j hj
    have hsub : ∀ g ∈ swapGates oa ob wa, ∀ x ∈ gateLines g,
        x < dataLinesOf decls := by
      intro g hg x hx
      rcases swapGates_lines oa ob wa g hg x hx with ⟨k, hk, he⟩ | ⟨k, hk, he⟩ <;>
        omega
    exact applyGates_congr (swapGates oa ob wa) sL sC hsub hdata j hj
  · intro j hj
    have hframe : ∀ g ∈ swapGates oa ob wa,
        ¬ (dataLinesOf decls ≤ g.target) := by
      intro g hg
      have := htgt g hg
      omega
    exact (applyGates_frame (swapGates oa ob wa) sL hframe j hj).trans (hLz j hj)
  · intro j hj
    have hd : dataLinesOf decls ≤ stC.lines := hinvC.1.1
    have hframe : ∀ g ∈ swapGates oa ob wa, ¬ (stC.lines ≤ g.target) := by
      intro g hg
      have := htgt g hg
      omega
    exact (applyGates_frame (swapGates oa ob wa) sC hframe j hj).trans (hCz j hj)

theorem tempRelabel_mem (tsL tsC : List Nat) (w k : Nat) (hlen : tsL.length = w)
    (hnd : tsL.Nodup) (hk : k < w) :
    tempRelabel tsL tsC (tsL.getD k 0) = tsC.getD k 0 := by
  unfold tempRelabel
  have hmem := ts_get_mem tsL w k hlen hk
  rw [if_pos hmem]
  congr 1
  have hlt : tsL.indexOf (tsL.getD k 0) < tsL.length :=
    List.indexOf_lt_length.mpr hmem
  have heq : tsL[tsL.indexOf (tsL.getD k 0)] = tsL.getD k 0 :=
    List.getElem_indexOf hlt
  have heq2 : tsL[tsL.indexOf (tsL.getD k 0)] = tsL[k] :=
    heq.trans (List.getD_eq_getElem tsL 0 (by omega))
  exact hnd.getElem_inj_iff.mp heq2

theorem tempRelabel_fix (tsL tsC : List Nat) (j : Nat) (h : j ∉ tsL) :
    tempRelabel tsL tsC j = j := by
  unfold tempRelabel
  rw [if_neg h]

theorem tempRelabel_img (tsL tsC : List Nat) (w : Nat) (hlenL : tsL.length = w)
    (hlenC : tsC.length = w) (x : Nat) (hx : x ∈ tsL) :
    tempRelabel tsL tsC x ∈ tsC := by
  unfold tempRelabel
  rw [if_pos hx]
  apply ts_get_mem tsC w _ hlenC
  have := List.indexOf_lt_length.mpr hx
  omega

theorem tempRelabel_inj (tsL tsC : List Nat) (d nC w : Nat)
    (hlenL : tsL.length = w) (hndL : tsL.Nodup)
    (htsL : ∀ t ∈ tsL, d ≤ t)
    (hlenC : tsC.length = w) (hndC : tsC.Nodup)
    (htsC : ∀ t ∈ tsC, nC ≤ t) (hdn : d ≤ nC) :
    ∀ i j, (i < d ∨ i ∈ tsL) → (j < d ∨ j ∈ tsL) →
      tempRelabel tsL tsC i = tempRelabel tsL tsC j → i = j := by
  intro i j hi hj he
  rcases hi with hi | hi <;> rcases hj with hj | hj
  · rwa [tempRelabel_fix _ _ i (fun hmem => by have := htsL i hmem; omega),
      tempRelabel_fix _ _ j (fun hmem => by have := htsL j hmem; omega)] at he
  · exfalso
    rw [tempRelabel_fix _ _ i (fun hmem => by have := htsL i hmem; omega)] at he
    have hge := htsC _ (tempRelabel_img tsL tsC w hlenL hlenC j hj)
    rw [← he] at hge
    omega
  · exfalso
    rw [tempRelabel_fix _ _ j (fun hmem => by have := htsL j hmem; omega)] at he
    have hge := htsC _ (tempRelabel_img tsL tsC w hlenL hlenC i hi)
    rw [he] at hge
    omega
  · unfold tempRelabel at he
    rw [if_pos hi, if_pos hj] at he
    have hlti : tsL.indexOf i < w := by
      have := List.indexOf_lt_length.mpr hi
      omega
    have hltj : tsL.indexOf j < w := by
      have := List.indexOf_lt_length.mpr hj
      omega
    by_cases hij : tsL.indexOf i = tsL.indexOf j
    · have h1 : tsL[tsL.indexOf i] = i := List.getElem_indexOf (by omega)
      have h2 : tsL[tsL.indexOf j] = j := List.getElem_indexOf (by omega)
      have h3 : tsL[tsL.indexOf i] = tsL[tsL.indexOf j] := by
        simp only [hij]
      rw [h1, h2] at h3
      exact h3
    · exact absurd he (ts_get_ne tsC w _ _ hlenC hlti hltj hij hndC)

theorem synthStmt_equiv_add (decls : List VarDecl) (stL stC stL' stC' : SynthState)
    (c a b : String)
    (hL : synthStmt .lineAware decls stL (.assignAdd c a b) = some stL')
    (hC : synthStmt .costAware decls stC (.assignAdd c a b) = some stC')
    (hinvL : StInv (dataLinesOf decls) stL)
    (hinvC : StInv (dataLinesOf decls) stC)
    (sL sC : Nat → Bool)
    (hrel : SimRel (dataLinesOf decls) stC.lines sL sC) :
    ∃ gsL gsC, stL'.gates = stL.gates ++ gsL ∧ stC'.gates = stC.gates ++ gsC ∧
      SimRel (dataLinesOf decls) stC'.lines (applyGates gsL sL) (applyGates gsC sC) := by
  obtain ⟨hdata, hLz, hCz⟩ := hrel
  rcases synthStmt_add_elim .lineAware decls stL stL' c a b hL with
    ⟨oc, wc, oa, wa, ob, wb, tsL, stA, hoc, hoa, hob, hwa, hwb, hwpos, hca, hcb,
      hacqL, hstL⟩
  rcases synthStmt_add_elim .costAware decls stC stC' c a b hC with
    ⟨oc2, wc2, oa2, wa2, ob2, wb2, tsC, stB, hoc2, hoa2, hob2, hwa2, hwb2,
      hwpos2, hca2, hcb2, hacqC, hstC⟩
  rw [hoc] at hoc2
  injection hoc2 with hoc2
  injection hoc2 with e1 e2
  subst e1
  subst e2
  rw [hoa] at hoa2
  injection hoa2 with hoa2
  injection hoa2 with e3 e4
  subst e3
  subst e4
  rw [hob] at hob2
  injection hob2 with hob2
  injection hob2 with e5 e6
  subst e5
  subst e6
  subst hwa
  subst hwb
  rw [acquireTemps_costAware_eq] at hacqC
  injection hacqC with hts hstB
  subst hts
  subst hstB
  have hd : dataLinesOf decls ≤ stC.lines := hinvC.1.1
  have specL := acquireTemps_spec .lineAware (dataLinesOf decls) wb stL tsL stA
    hinvL.1 hacqL
  have hbC := offsetOf_bound decls c oc wb hoc
  have hbA := offsetOf_bound decls a oa wb hoa
  have hbB := offsetOf_bound decls b ob wb hob
  have hla : ∀ k, k < wb → lineForBit oa wb k < dataLinesOf decls := by
    intro k hk
    unfold lineForBit
    omega
  have hlb : ∀ k, k < wb → lineForBit ob wb k < dataLinesOf decls := by
    intro k hk
    unfold lineForBit
    omega
  have hlc : ∀ k, k < wb → lineForBit oc wb k < dataLinesOf decls := by
    intro k hk
    unfold lineForBit
    omega
  have hdisjCA := offsetOf_disjoint decls c a oc wb oa wb hca hoc hoa
  have hdisjCB := offsetOf_disjoint decls c b oc wb ob wb hcb hoc hob
  have hlcla : ∀ k k', k < wb → k' < wb →
      lineForBit oc wb k ≠ lineForBit oa wb k' := by
    intro k k' hk hk'
    unfold lineForBit
    rcases hdisjCA with h | h <;> omega
  have hlclb : ∀ k k', k < wb → k' < wb →
      lineForBit oc wb k ≠ lineForBit ob wb k' := by
    intro k k' hk hk'
    unfold lineForBit
    rcases hdisjCB with h | h <;> omega
  have htsC_len : (List.range' stC.lines wb).length = wb := by simp
  have htsC_nodup : (List.range' stC.lines wb).Nodup := by
    exact List.nodup_range' stC.lines wb
  have htsC_mem : ∀ t ∈ List.range' stC.lines wb,
      stC.lines ≤ t ∧ t < stC.lines + wb := by
    intro t ht
    exact List.mem_range'_1.mp ht
  have htsL_ge : ∀ t ∈ tsL, dataLinesOf decls ≤ t := fun t ht => (specL.range t ht).1
  have hinj := tempRelabel_inj tsL (List.range' stC.lines wb)
    (dataLinesOf decls) stC.lines wb specL.len specL.nodup htsL_ge
    htsC_len htsC_nodup (fun t ht => (htsC_mem t ht).1) hd
  have hrho_ts : ∀ k, k < wb → tempRelabel tsL (List.range' stC.lines wb)
      (tsL.getD k 0) = (List.range' stC.lines wb).getD k 0 := fun k hk =>
    tempRelabel_mem tsL _ wb k specL.len specL.nodup hk
  have hrho_la : ∀ k, k < wb → tempRelabel tsL (List.range' stC.lines wb)
      (lineForBit oa wb k) = lineForBit oa wb k := fun k hk =>
    tempRelabel_fix _ _ _ (fun hmem => by
      have := htsL_ge _ hmem
      have := hla k hk
      omega)
  have hrho_lb : ∀ k, k < wb → tempRelabel tsL (List.range' stC.lines wb)
      (lineForBit ob wb k) = lineForBit ob wb k := fun k hk =>
    tempRelabel_fix _ _ _ (fun hmem => by
      have := htsL_ge _ hmem
      have := hlb k hk
      omega)
  have hrho_lc : ∀ k, k < wb → tempRelabel tsL (List.range' stC.lines wb)
      (lineForBit oc wb k) = lineForBit oc wb k := fun k hk =>
    tempRelabel_fix _ _ _ (fun hmem => by
      have := htsL_ge _ hmem
      have := hlc k hk
      omega)
  have hrel_map : (addIntoTemps (lineForBit oa wb) (lineForBit ob wb) tsL wb ++
      xorFromTemps tsL (lineForBit oc wb) wb).map
        (relabelGate (tempRelabel tsL (List.range' stC.lines wb))) =
      addIntoTemps (lineForBit oa wb) (lineForBit ob wb)
        (List.range' stC.lines wb) wb ++
      xorFromTemps (List.range' stC.lines wb) (lineForBit oc wb) wb := by
    rw [List.map_append,
      relabel_addIntoTemps _ _ _ _ _ _ hrho_ts hrho_la hrho_lb,
      relabel_xorFromTemps _ _ _ _ _ hrho_ts hrho_lc]
  have hsub_AX : ∀ g ∈ addIntoTemps (lineForBit oa wb) (lineForBit ob wb) tsL wb ++
      xorFromTemps tsL (lineForBit oc wb) wb, ∀ j ∈ gateLines g,
      (j < dataLinesOf decls ∨ j ∈ tsL) := by
    intro g hg j hj
    rcases List.mem_append.mp hg with hg | hg
    · rcases addIntoTemps_lines _ _ _ _ g hg j hj with
        ⟨k, hk, he⟩ | ⟨k, hk, he⟩ | ⟨k, hk, he⟩
      · exact Or.inl (he ▸ hla k hk)
      · exact Or.inl (he ▸ hlb k hk)
      · exact Or.inr (he ▸ ts_get_mem tsL wb k specL.len hk)
    · rcases xorFromTemps_lines _ _ _ g hg j hj with ⟨k, hk, he⟩ | ⟨k, hk, he⟩
      · exact Or.inr (he ▸ ts_get_mem tsL wb k specL.len hk)
      · exact Or.inl (he ▸ hlc k hk)
  have hag : ∀ j, (j < dataLinesOf decls ∨ j ∈ tsL) →
      sL j = sC (tempRelabel tsL (List.range' stC.lines wb) j) := by
    intro j hj
    rcases hj with hj | hj
    · rw [tempRelabel_fix _ _ _ (fun hmem => by
        have := htsL_ge _ hmem
        omega)]
      exact hdata j hj
    · rw [hLz j (htsL_ge j hj)]
      have himg := tempRelabel_img tsL (List.range' stC.lines wb) wb
        specL.len htsC_len j hj
      rw [hCz _ (htsC_mem _ himg).1]
  have hrelab := applyGates_relabel (tempRelabel tsL (List.range' stC.lines wb))
    (addIntoTemps (lineForBit oa wb) (lineForBit ob wb) tsL wb ++
      xorFromTemps tsL (lineForBit oc wb) wb) sL sC hinj hsub_AX hag
  have hvA := addIntoTemps_valid (dataLinesOf decls) stA.lines wb
    (lineForBit oa wb) (lineForBit ob wb) tsL hla hlb specL.len specL.nodup
    specL.range specL.inv.1
  have hAtgt : ∀ g ∈ addIntoTemps (lineForBit oa wb) (lineForBit ob wb) tsL wb,
      g.target ∈ tsL := by
    intro g hg
    rcases addIntoTemps_targets _ _ _ _ g hg with ⟨k, hk, he⟩
    exact he ▸ ts_get_mem tsL wb k specL.len hk
  refine ⟨addIntoTemps (lineForBit oa wb) (lineForBit ob wb) tsL wb ++
      xorFromTemps tsL (lineForBit oc wb) wb ++
      (addIntoTemps (lineForBit oa wb) (lineForBit ob wb) tsL wb).reverse,
    addIntoTemps (lineForBit oa wb) (lineForBit ob wb)
      (List.range' stC.lines wb) wb ++
      xorFromTemps (List.range' stC.lines wb) (lineForBit oc wb) wb,
    ?_, ?_, ?_, ?_, ?_⟩
  · subst hstL
    show (releaseTemps Mode.lineAware tsL _).gates = _
    rw [show ∀ st : SynthState, (releaseTemps Mode.lineAware tsL st).gates =
      st.gates from fun st => rfl]
    rw [specL.gatesEq]
    simp [List.append_assoc]
  · subst hstC
    show (releaseTemps Mode.costAware _ _).gates = _
    rw [show ∀ (ts : List Nat) (st : SynthState),
      (releaseTemps Mode.costAware ts st).gates = st.gates from fun ts st => rfl]
    simp [List.append_assoc]
  · -- data lines agree
    intro j hj
    rw [applyGates_append, applyGates_append]
    have hfr : ∀ g ∈ (addIntoTemps (lineForBit oa wb) (lineForBit ob wb)
        tsL wb).reverse, ¬ (g.target < dataLinesOf decls) := by
      intro g hg hlt
      have := htsL_ge _ (hAtgt g (List.mem_reverse.mp hg))
      omega
    rw [@applyGates_frame (fun x => x < dataLinesOf decls) _ _ hfr j hj]
    rw [← applyGates_append]
    have hstep := hrelab j (Or.inl hj)
    rw [tempRelabel_fix _ _ _ (fun hmem => by
      have := htsL_ge _ hmem
      omega)] at hstep
    rw [hstep, hrel_map, applyGates_append]
  · -- line-aware non-data lines are zero
    intro j hj
    by_cases hjt : j ∈ tsL
    · rw [applyGates_append, applyGates_append]
      have hXtarget : ∀ g ∈ xorFromTemps tsL (lineForBit oc wb) wb,
          ¬ (∃ k, k < wb ∧ (g.target = lineForBit oa wb k ∨
            g.target = lineForBit ob wb k ∨ g.target = tsL.getD k 0)) := by
        intro g hg hLc
        rcases xorFromTemps_targets _ _ _ g hg with ⟨k, hk, he⟩
        rcases hLc with ⟨k', hk', h | h | h⟩
        · rw [he] at h
          exact hlcla k k' hk hk' h
        · rw [he] at h
          exact hlclb k k' hk hk' h
        · rw [he] at h
          have h1 := hlc k hk
          have h2 := htsL_ge _ (ts_get_mem tsL wb k' specL.len hk')
          omega
      have hALc : ∀ g ∈ (addIntoTemps (lineForBit oa wb) (lineForBit ob wb)
          tsL wb).reverse, ∀ x ∈ gateLines g,
          (∃ k, k < wb ∧ (x = lineForBit oa wb k ∨ x = lineForBit ob wb k ∨
            x = tsL.getD k 0)) := by
        intro g hg x hx
        rcases addIntoTemps_lines _ _ _ _ g (List.mem_reverse.mp hg) x hx with
          ⟨k, hk, he⟩ | ⟨k, hk, he⟩ | ⟨k, hk, he⟩
        · exact ⟨k, hk, Or.inl he⟩
        · exact ⟨k, hk, Or.inr (Or.inl he)⟩
        · exact ⟨k, hk, Or.inr (Or.inr he)⟩
      have hfr := @applyGates_frame (fun x => ∃ k, k < wb ∧
          (x = lineForBit oa wb k ∨ x = lineForBit ob wb k ∨ x = tsL.getD k 0))
        (xorFromTemps tsL (lineForBit oc wb) wb)
        (applyGates (addIntoTemps (lineForBit oa wb) (lineForBit ob wb) tsL wb)
          sL) hXtarget
      have hcong := applyGates_congr
        ((addIntoTemps (lineForBit oa wb) (lineForBit ob wb) tsL wb).reverse)
        _ _ hALc hfr
      have hLcj : ∃ k, k < wb ∧ (j = lineForBit oa wb k ∨
          j = lineForBit ob wb k ∨ j = tsL.getD k 0) := by
        rcases List.mem_iff_getElem.mp hjt with ⟨k, hk, he⟩
        refine ⟨k, by have := specL.len; omega, Or.inr (Or.inr ?_)⟩
        rw [List.getD_eq_getElem tsL 0 hk, he]
      rw [hcong j hLcj]
      have hinv2 := applyGates_reverse_inverse
        (addIntoTemps (lineForBit oa wb) (lineForBit ob wb) tsL wb) sL
        (fun g hg => (hvA g hg).2.2)
      rw [hinv2]
      exact hLz j hj
    · have htgts : ∀ g ∈ addIntoTemps (lineForBit oa wb) (lineForBit ob wb)
          tsL wb ++ xorFromTemps tsL (lineForBit oc wb) wb ++
          (addIntoTemps (lineForBit oa wb) (lineForBit ob wb) tsL wb).reverse,
          ¬ (g.target = j) := by
        intro g hg he
        rcases List.mem_append.mp hg with hg | hg
        · rcases List.mem_append.mp hg with hg | hg
          · exact hjt (he ▸ hAtgt g hg)
          · rcases xorFromTemps_targets _ _ _ g hg with ⟨k, hk, he2⟩
            rw [he2] at he
            have := hlc k hk
            omega
        · exact hjt (he ▸ hAtgt g (List.mem_reverse.mp hg))
      rw [@applyGates_frame (fun x => x = j) _ sL htgts j rfl]
      exact hLz j hj
  · -- cost-aware beyond-allocation lines are zero
    intro j hj
    subst hstC
    have hj' : stC.lines + wb ≤ j := hj
    have htgts : ∀ g ∈ addIntoTemps (lineForBit oa wb) (lineForBit ob wb)
        (List.range' stC.lines wb) wb ++
        xorFromTemps (List.range' stC.lines wb) (lineForBit oc wb) wb,
        ¬ (g.target = j) := by
      intro g hg he
      rcases List.mem_append.mp hg with hg | hg
      · rcases addIntoTemps_targets _ _ _ _ g hg with ⟨k, hk, he2⟩
        have hmem := ts_get_mem (List.range' stC.lines wb) wb k htsC_len hk
        have := (htsC_mem _ hmem).2
        rw [he2] at he
        omega
      · rcases xorFromTemps_targets _ _ _ g hg with ⟨k, hk, he2⟩
        rw [he2] at he
        have := hlc k hk
        omega
    rw [@applyGates_frame (fun x => x = j) _ sC htgts j rfl]
    exact hCz j (by omega)

theorem synthStmt_equiv (decls : List VarDecl) (stL stC stL' stC' : SynthState)
    (s : Stmt)
    (hL : synthStmt .lineAware decls stL s = some stL')
    (hC : synthStmt .costAware decls stC s = some stC')
    (hinvL : StInv (dataLinesOf decls) stL)
    (hinvC : StInv (dataLinesOf decls) stC)
    (sL sC : Nat → Bool)
    (hrel : SimRel (dataLinesOf decls) stC.lines sL sC) :
    ∃ gsL gsC, stL'.gates = stL.gates ++ gsL ∧ stC'.gates = stC.gates ++ gsC ∧
      SimRel (dataLinesOf decls) stC'.lines (applyGates gsL sL) (applyGates gsC sC) := by
  cases s with
  | swapStmt a b =>
    exact synthStmt_equiv_swap decls stL stC stL' stC' a b hL hC hinvC sL sC hrel
  | assignAdd c a b =>
    exact synthStmt_equiv_add decls stL stC stL' stC' c a b hL hC hinvL hinvC
      sL sC hrel

theorem synthFold_equiv (decls : List VarDecl) :
    ∀ (stmts : List Stmt) (stL stC stL' stC' : SynthState) (sL sC : Nat → Bool),
      synthFold .lineAware decls stL stmts = some stL' →
      synthFold .costAware decls stC stmts = some stC' →
      StInv (dataLinesOf decls) stL → StInv (dataLinesOf decls) stC →
      SimRel (dataLinesOf decls) stC.lines sL sC →
      ∃ gsL gsC, stL'.gates = stL.gates ++ gsL ∧ stC'.gates = stC.gates ++ gsC ∧
        SimRel (dataLinesOf decls) stC'.lines
          (applyGates gsL sL) (applyGates gsC sC) := by
  intro stmts
  induction stmts with
  | nil =>
    intro stL stC stL' stC' sL sC h1 h2 hinvL hinvC hrel
    simp only [synthFold] at h1 h2
    injection h1 with h1
    injection h2 with h2
    subst h1
    subst h2
    exact ⟨[], [], by simp, by simp, hrel⟩
  | cons s rest ih =>
    intro stL stC stL' stC' sL sC h1 h2 hinvL hinvC hrel
    simp only [synthFold] at h1 h2
    split at h1
    next stA hsA =>
      split at h2
      next stB hsB =>
        obtain ⟨gsL1, gsC1, hg1, hg2, hrel1⟩ :=
          synthStmt_equiv decls stL stC stA stB s hsA hsB hinvL hinvC sL sC hrel
        obtain ⟨hinvL1, _⟩ := synthStmt_inv .lineAware decls stL stA s hsA hinvL
        obtain ⟨hinvC1, _⟩ := synthStmt_inv .costAware decls stC stB s hsB hinvC
        obtain ⟨gsL2, gsC2, hh1, hh2, hrel2⟩ := ih stA stB stL' stC'
          (applyGates gsL1 sL) (applyGates gsC1 sC) h1 h2 hinvL1 hinvC1 hrel1
        refine ⟨gsL1 ++ gsL2, gsC1 ++ gsC2, ?_, ?_, ?_⟩
        · rw [hh1, hg1, List.append_assoc]
        · rw [hh2, hg2, List.append_assoc]
        · rw [applyGates_append, applyGates_append]
          exact hrel2
      next hsB => exact absurd h2 (by simp)
    next hsA => exact absurd h1 (by simp)

/-- C2: the concrete scenario — both policies synthesize `c := a + b` so
that inputs `a=01, b=01` simulate to `c=10` — and, in general, the two
policies synthesize circuits that compute the same function on the program's
data qubits (ancilla lines initialized to zero). -/
theorem policy_functional_equivalence :
    ((simulate addCircuitLA scenarioInput false).toOption.map
        (fun out => [out.getD 4 false, out.getD 5 false]) = some [true, false]) ∧
    ((simulate addCircuitCA scenarioInput false).toOption.map
        (fun out => [out.getD 4 false, out.getD 5 false]) = some [true, false]) ∧
    ∀ (p : Program) (c1 c2 : Circuit) (ds : List Bool),
      synthesize .lineAware p = some c1 → synthesize .costAware p = some c2 →
      ds.length = c1.dataLines →
      (simulate c1 (ds ++ List.replicate (c1.lines - c1.dataLines) false)
          false).map (fun out => out.take c1.dataLines) =
        (simulate c2 (ds ++ List.replicate (c2.lines - c2.dataLines) false)
          false).map (fun out => out.take c2.dataLines) := by
  refine ⟨by decide, by decide, ?_⟩
  intro p c1 c2 ds h1 h2 hds
  have hv1 := synthesize_valid .lineAware p c1 h1
  have hv2 := synthesize_valid .costAware p c2 h2
  unfold synthesize at h1 h2
  split at h1
  next hdiag =>
    rw [if_pos hdiag] at h2
    split at h1
    next stA hfold1 =>
      split at h2
      next stB hfold2 =>
        injection h1 with h1
        injection h2 with h2
        subst h1
        subst h2
        have hinit : StInv (dataLinesOf p.decls)
            ⟨dataLinesOf p.decls, [], []⟩ :=
          ⟨⟨le_rfl, by simp, List.nodup_nil⟩, by simp⟩
        have hdsd : ds.length = dataLinesOf p.decls := hds
        have hrel0 : SimRel (dataLinesOf p.decls) (dataLinesOf p.decls)
            (listToFun ds) (listToFun ds) := by
          refine ⟨fun j hj => rfl, fun j hj => ?_, fun j hj => ?_⟩ <;>
            · unfold listToFun
              exact getD_eq_false_of_le ds j (by omega)
        obtain ⟨gsL, gsC, hg1, hg2, hrelF⟩ := synthFold_equiv p.decls p.stmts
          ⟨dataLinesOf p.decls, [], []⟩ ⟨dataLinesOf p.decls, [], []⟩ stA stB
          (listToFun ds) (listToFun ds) hfold1 hfold2 hinit hinit hrel0
        simp only [List.nil_append] at hg1 hg2
        have hA_lines : dataLinesOf p.decls ≤ stA.lines := by
          have := hv1.2.1
          simpa using this
        have hB_lines : dataLinesOf p.decls ≤ stB.lines := by
          have := hv2.2.1
          simpa using this
        have hlen1 : (ds ++ List.replicate
            (stA.lines - dataLinesOf p.decls) false).length = stA.lines := by
          simp
          omega
        have hlen2 : (ds ++ List.replicate
            (stB.lines - dataLinesOf p.decls) false).length = stB.lines := by
          simp
          omega
        have hsim1 : simulate ⟨stA.lines, dataLinesOf p.decls, stA.gates⟩
            (ds ++ List.replicate (stA.lines - dataLinesOf p.decls) false)
            false = Except.ok
              (funToList (applyGates stA.gates (listToFun ds)) stA.lines) := by
          unfold simulate
          rw [if_pos hlen1, listToFun_append_zeros]
          rfl
        have hsim2 : simulate ⟨stB.lines, dataLinesOf p.decls, stB.gates⟩
            (ds ++ List.replicate (stB.lines - dataLinesOf p.decls) false)
            false = Except.ok
              (funToList (applyGates stB.gates (listToFun ds)) stB.lines) := by
          unfold simulate
          rw [if_pos hlen2, listToFun_append_zeros]
          rfl
        show (simulate ⟨stA.lines, dataLinesOf p.decls, stA.gates⟩
            (ds ++ List.replicate (stA.lines - dataLinesOf p.decls) false)
            false).map (fun out => out.take (dataLinesOf p.decls)) =
          (simulate ⟨stB.lines, dataLinesOf p.decls, stB.gates⟩
            (ds ++ List.replicate (stB.lines - dataLinesOf p.decls) false)
            false).map (fun out => out.take (dataLinesOf p.decls))
        rw [hsim1, hsim2]
        show Except.ok ((funToList (applyGates stA.gates (listToFun ds))
            stA.lines).take (dataLinesOf p.decls)) =
          Except.ok ((funToList (applyGates stB.gates (listToFun ds))
            stB.lines).take (dataLinesOf p.decls))
        congr 1
        have htake : ∀ (f : Nat → Bool) (n : Nat),
            dataLinesOf p.decls ≤ n →
              (funToList f n).take (dataLinesOf p.decls) =
                funToList f (dataLinesOf p.decls) := by
          intro f n hn
          unfold funToList
          rw [← List.map_take, List.take_range, Nat.min_eq_left hn]
        rw [htake _ stA.lines hA_lines, htake _ stB.lines hB_lines]
        unfold funToList
        apply List.map_congr_left
        intro j hj
        rw [hg1, hg2]
        exact hrelF.1 j (List.mem_range.mp hj)
      next hfold2 => exact absurd h2 (by simp)
    next hfold1 => exact absurd h1 (by simp)
  next hdiag => exact absurd h1 (by simp)

/-- Witness for C2: the scenario program with data input `a=01, b=01, c=00`;
the two circuits' simulations agree on all six data lines. -/
theorem policy_functional_equivalence_witness :
    synthesize Mode.lineAware addProg = some addCircuitLA ∧
      synthesize Mode.costAware addProg = some addCircuitCA ∧
      (simulate addCircuitLA ([false, true, false, true, false, false] ++
          List.replicate (addCircuitLA.lines - addCircuitLA.dataLines) false)
          false).map (fun out => out.take addCircuitLA.dataLines) =
        (simulate addCircuitCA ([false, true, false, true, false, false] ++
          List.replicate (addCircuitCA.lines - addCircuitCA.dataLines) false)
          false).map (fun out => out.take addCircuitCA.dataLines) := by
  have hs1 : synthesize Mode.lineAware addProg = some addCircuitLA := by decide
  have hs2 : synthesize Mode.costAware addProg = some addCircuitCA := by decide
  exact ⟨hs1, hs2, policy_functional_equivalence.2.2 addProg addCircuitLA
    addCircuitCA [false, true, false, true, false, false] hs1 hs2 (by decide)⟩

end Syrec
